import Mathlib

/-!
# Verification of the claude-teams coordination substrate

Shallow embedding of the parts of `claude_teams` (models.py, tasks.py,
messaging.py, spawner.py, server.py) that the claims quantify over, with
theorems settling each claim.

Conventions:
* task files on disk are modelled as a list of `TaskFile` records, keyed by
  their `id` field (the file `<id>.json` holds a record whose `id` equals the
  stem, an invariant of the store);
* Python exceptions are modelled with `Except`; a function whose Python
  original both mutates the disk and may raise returns the resulting disk
  together with an `Except` value, the disk component being the state after
  the call (unchanged when the original raises before its write phase);
* `dict` values are association lists, `set` membership is list membership.
-/

namespace ClaudeTeams

/-- Task status values of the pydantic `Literal` on `TaskFile.status`
(models.py). A status of `deleted` never persists on disk (update_task
unlinks the file), but the type admits it as the pydantic field does. -/
inductive TaskStatus where
  | pending
  | in_progress
  | completed
  | deleted
deriving DecidableEq, Repr

/-- String form of a status, as stored in JSON (models.py `Literal` values). -/
def TaskStatus.str : TaskStatus → String
  | .pending => "pending"
  | .in_progress => "in_progress"
  | .completed => "completed"
  | .deleted => "deleted"

/-- `_STATUS_ORDER` (tasks.py line 20): the three orderable statuses; a lookup
of any other key raises `KeyError` in Python, modelled by `none`. -/
def statusOrder (s : String) : Option Nat :=
  if s = "pending" then some 0
  else if s = "in_progress" then some 1
  else if s = "completed" then some 2
  else none

/-- Inverse of `TaskStatus.str` for the four literal values. -/
def parseStatus (s : String) : Option TaskStatus :=
  if s = "pending" then some .pending
  else if s = "in_progress" then some .in_progress
  else if s = "completed" then some .completed
  else if s = "deleted" then some .deleted
  else none

/-- A metadata value (models.py: `str | int | float | bool`; float values are
outside the model, no claim touches them). -/
inductive MetaVal where
  | str (s : String)
  | int (n : Int)
  | bool (b : Bool)
deriving DecidableEq, Repr

/-- `TaskFile` (models.py lines 112-123). -/
structure TaskFile where
  id : String
  subject : String
  description : String
  active_form : String := ""
  status : TaskStatus := .pending
  blocks : List String := []
  blocked_by : List String := []
  owner : Option String := none
  metadata : Option (List (String × MetaVal)) := none
deriving DecidableEq, Repr

/-- The task directory of one team: the set of `<id>.json` files. -/
abbrev Disk := List TaskFile

/-- Reading `<i>.json` from the team directory: the record whose id is `i`. -/
def findTask (d : Disk) (i : String) : Option TaskFile :=
  List.find? (fun t => t.id == i) d

/-- `(team_dir / f"{i}.json").exists()`. -/
def taskExists (d : Disk) (i : String) : Bool :=
  (findTask d i).isSome

/-- Writing `<t.id>.json`: replace the record with that id, or create it. -/
def writeTask (d : Disk) (t : TaskFile) : Disk :=
  if (findTask d t.id).isSome then
    List.map (fun u => if u.id == t.id then t else u) d
  else
    d ++ [t]

/-- `fpath.unlink()`: remove the record with the given id. -/
def removeTask (d : Disk) (i : String) : Disk :=
  List.filter (fun t => ¬ t.id == i) d

/-- Well-formed store: distinct task files have distinct ids. -/
def DiskWF (d : Disk) : Prop :=
  (List.map TaskFile.id d).Nodup

instance (d : Disk) : Decidable (DiskWF d) := by
  unfold DiskWF; infer_instance

/-- ASCII whitespace stripped by Python's `int()` and `str.strip()`. -/
def isPySpace (c : Char) : Bool :=
  c = ' ' || c = '\t' || c = '\n' || c = '\r' || c = '\x0b' || c = '\x0c'

/-- `str.strip()` at the character-list level. -/
def pyStripChars (cs : List Char) : List Char :=
  ((cs.dropWhile isPySpace).reverse.dropWhile isPySpace).reverse

/-- Decimal value of a digit run. -/
def digitsVal (cs : List Char) : Nat :=
  cs.foldl (fun acc c => acc * 10 + (c.toNat - '0'.toNat)) 0

/-- Python `int(s)` on a file stem (tasks.py `int(task_file.stem)`): strip
whitespace, optional sign, nonempty run of decimal digits. (Digit-group
underscores, non-ASCII digits are outside the model.) -/
def pyInt (s : String) : Option Int :=
  let t := pyStripChars s.data
  let signDigits : Int × List Char :=
    match t with
    | '-' :: rest => (-1, rest)
    | '+' :: rest => (1, rest)
    | _ => (1, t)
  if signDigits.2 ≠ [] ∧ signDigits.2.all Char.isDigit then
    some (signDigits.1 * (digitsVal signDigits.2 : Nat))
  else
    none

/-- The integer ids present in the team directory (stems that parse as ints). -/
def intIds (d : Disk) : List Int :=
  List.filterMap (fun t => pyInt t.id) d

/-- Numeric value of the next task id: `max(ids) + 1`, or `1` if none
(`next_task_id`, tasks.py lines 68-85). -/
def nextTaskIdVal (d : Disk) : Int :=
  match (intIds d).max? with
  | none => 1
  | some m => m + 1

/-- `next_task_id` (tasks.py lines 68-85). -/
def nextTaskId (d : Disk) : String :=
  toString (nextTaskIdVal d)

/-! ## Mailboxes (messaging.py, models.py `InboxMessage`) -/

/-- `InboxMessage` (models.py lines 126-134); pydantic equality compares all
fields, matching the derived `DecidableEq`. -/
structure InboxMessage where
  from_ : String
  text : String
  timestamp : String
  read : Bool := false
  summary : Option String := none
  color : Option String := none
deriving DecidableEq, Repr

/-- Default used only to satisfy `getD` at indices proven in range. -/
def defaultMsg : InboxMessage :=
  { from_ := "", text := "", timestamp := "" }

/-- `msg.read = True` (read_inbox's in-place flip). -/
def markRead (m : InboxMessage) : InboxMessage :=
  { m with read := true }

/-- The indices of the messages `read_inbox` returns: all of them, or the
unread ones when `unread_only`. -/
def resultIdxs (msgs : List InboxMessage) (unreadOnly : Bool) : List Nat :=
  List.filter
    (fun i => !unreadOnly || !(List.getD msgs i defaultMsg).read)
    (List.range msgs.length)

/-- One iteration of the marking loop of `read_inbox` at index `i`:
`if msg in result: msg.read = True`, where `result` holds references into
`all_msgs`, so the membership test compares the record at `i` with the
current (possibly already-marked) records at the returned indices, by
value. -/
def markStep (idxs : List Nat) (st : List InboxMessage) (i : Nat) :
    List InboxMessage :=
  let cur := List.getD st i defaultMsg
  if List.any idxs (fun j => decide (List.getD st j defaultMsg = cur)) then
    List.set st i (markRead cur)
  else
    st

/-- The marking loop of `read_inbox` (messaging.py lines 120-122):
`for msg in all_msgs: if msg in result: msg.read = True`. -/
def markLoop (msgs : List InboxMessage) (idxs : List Nat) : List InboxMessage :=
  List.foldl (markStep idxs) msgs (List.range msgs.length)

/-- `read_inbox` (messaging.py lines 85-135), at the level of the decoded
message list.  Returns `(result, file contents after the call, whether the
file was rewritten)`. -/
def readInbox (msgs : List InboxMessage) (unreadOnly markAsRead : Bool) :
    List InboxMessage × List InboxMessage × Bool :=
  if markAsRead then
    let idxs := resultIdxs msgs unreadOnly
    if idxs = [] then
      ([], msgs, false)
    else
      let marked := markLoop msgs idxs
      (List.map (fun i => List.getD marked i defaultMsg) idxs, marked, true)
  else
    (if unreadOnly then List.filter (fun m => !m.read) msgs else msgs,
     msgs, false)

/-! ## Color palette and spawning (models.py, spawner.py, server.py) -/

/-- `COLOR_PALETTE` (models.py lines 19-28). -/
def COLOR_PALETTE : List String :=
  ["blue", "green", "yellow", "purple", "orange", "pink", "cyan", "red"]

/-- `TeammateMember` (models.py lines 44-60; fields not used by any claim are
kept for shape). -/
structure TeammateRec where
  agent_id : String
  name : String
  agent_type : String
  model : String
  prompt : String
  color : String
  plan_mode_required : Bool := false
  joined_at : Int
  tmux_pane_id : String
  cwd : String
  backend_type : String := "claude-code"
  is_active : Bool := false
  process_handle : String := ""
deriving DecidableEq, Repr

/-- A team-config member: the lead (`LeadMember`) or a worker
(`TeammateMember`); discriminated in Python by `isinstance`. -/
inductive Member where
  | lead (agent_id name : String)
  | teammate (t : TeammateRec)
deriving DecidableEq, Repr

/-- `isinstance(member, TeammateMember)`. -/
def Member.isTeammate : Member → Bool
  | .lead _ _ => false
  | .teammate _ => true

/-- A member's `name` field. -/
def Member.name : Member → String
  | .lead _ n => n
  | .teammate t => t.name

/-- `assign_color` (spawner.py lines 33-45): count the `TeammateMember`
records in the config and index the palette by `count % len(palette)`. -/
def assignColor (members : List Member) : String :=
  let count := (List.filter Member.isTeammate members).length
  List.getD COLOR_PALETTE (count % COLOR_PALETTE.length) ""

/-! ## One-shot relay, delivery and cleanup phases (server.py lines 817-855)

The relay's wait/collect phases poll the real clock, the result file and the
pane; their outcome is summarised by the inputs below: `text` is the collected
output after stripping (empty when nothing was captured), `deadlinePassed` is
`time.time() >= deadline` at line 818, `hasResultFile` is `result_file is not
None`, and `backendAvailable` is `backend_obj is not None`. -/

/-- `_ONE_SHOT_RESULT_MAX_CHARS` (server.py line 36). -/
def ONE_SHOT_RESULT_MAX_CHARS : Nat := 12000

/-- What the delivery + cleanup phases of `_relay_one_shot_result` did. -/
structure RelayEffects where
  sentFrom : String
  sentTo : String
  sentText : String
  sentSummary : String
  fileDeleted : Bool
  killCalled : Bool
deriving DecidableEq, Repr

/-- Phases 3 and 4 of `_relay_one_shot_result` (server.py lines 817-855),
translated branch for branch: the timeout report returns early (line 827),
the other two deliveries fall through to the cleanup code. -/
def relayDeliver (agentName backendType : String) (text : String)
    (deadlinePassed hasResultFile backendAvailable : Bool) : RelayEffects :=
  if text = "" ∧ deadlinePassed = true then
    { sentFrom := agentName
      sentTo := "team-lead"
      sentText := agentName ++ " timed out before producing output."
      sentSummary := "teammate_timeout"
      fileDeleted := false
      killCalled := false }
  else
    let text1 :=
      if text = "" then
        agentName ++ " (" ++ backendType ++ ") finished, but no output was captured."
      else
        text
    let text2 :=
      if ONE_SHOT_RESULT_MAX_CHARS < text1.length then
        (text1.take ONE_SHOT_RESULT_MAX_CHARS) ++ "\n\n[truncated]"
      else text1
    { sentFrom := agentName
      sentTo := "team-lead"
      sentText := text2
      sentSummary := "teammate_result"
      fileDeleted := hasResultFile
      killCalled := backendAvailable }

/-! ## Spawn tool (server.py lines 154-299), team store modelled from the spec

The team store (`claude_teams.teams`) is imported by server.py and spawner.py
but its source is not part of the corpus; the two operations the spawn flow
needs are modelled from the spec (§4.2). -/

/-- Modelled from the spec: `teams.add_member` of the missing module
`claude_teams.teams` — "Reads config, rejects duplicate names, appends,
writes." -/
def addMember (members : List Member) (m : Member) : Except String (List Member) :=
  if List.any members (fun x => x.name == m.name) then
    Except.error ("Member " ++ m.name ++ " already exists")
  else
    Except.ok (members ++ [m])

/-- Modelled from the spec: `teams.remove_member` of the missing module
`claude_teams.teams` — "Rejects removal of `team-lead`"; removes the member
with the given name otherwise (no-op when absent). -/
def removeMember (members : List Member) (agentName : String) :
    Except String (List Member) :=
  if agentName = "team-lead" then
    Except.error "Cannot remove team-lead"
  else
    Except.ok (List.filter (fun m => ¬ m.name == agentName) members)

/-- Modelled from the spec: the name pattern of `_VALID_NAME_RE` of the
missing module `claude_teams.teams` (§4.2: `^[A-Za-z0-9_-]+$`). -/
def validNameChars (name : String) : Bool :=
  decide (name.data ≠ []) &&
    name.data.all (fun c => c.isAlphanum || c = '-' || c = '_')

/-- State touched by the `spawn_teammate` tool: the team config's member list
and the new agent's mailbox file. -/
structure SpawnState where
  members : List Member
  inbox : List InboxMessage
deriving DecidableEq, Repr

/-- `spawn_teammate` (server.py lines 154-299) from name validation onward,
threading the config and the new agent's mailbox.  `spawnOutcome` stands for
the `backend_obj.spawn(request)` call: `some handle` on success, `none` when
it raises (then line 265 removes the member and the tool re-raises).
`timestampNow` stands for `messaging.now_iso()`. -/
def spawnTeammateTool (st : SpawnState) (teamName name prompt : String)
    (model subagentType backendName : String) (planModeRequired : Bool)
    (joinedAtMs : Int) (cwd timestampNow : String)
    (spawnOutcome : Option String) :
    SpawnState × Except String TeammateRec :=
  if ¬ validNameChars name then
    (st, Except.error ("Invalid agent name: " ++ name))
  else if 64 < name.length then
    (st, Except.error "Agent name too long")
  else if name = "team-lead" then
    (st, Except.error "Agent name 'team-lead' is reserved")
  else
    let color := assignColor st.members
    let member : TeammateRec :=
      { agent_id := name ++ "@" ++ teamName
        name := name
        agent_type := subagentType
        model := model
        prompt := prompt
        color := color
        plan_mode_required := planModeRequired
        joined_at := joinedAtMs
        tmux_pane_id := ""
        cwd := cwd
        backend_type := backendName
        is_active := false
        process_handle := "" }
    match addMember st.members (.teammate member) with
    | .error e => (st, .error e)
    | .ok members1 =>
      let initialMsg : InboxMessage :=
        { from_ := "team-lead", text := prompt, timestamp := timestampNow,
          read := false }
      let inbox1 := st.inbox ++ [initialMsg]
      match spawnOutcome with
      | none =>
        let members2 := (removeMember members1 name).toOption.getD members1
        ({ members := members2, inbox := inbox1 },
         .error "Backend spawn failed")
      | some handle =>
        let members2 := List.map
          (fun m => match m with
            | .teammate t =>
              if t.name == name then
                .teammate { t with process_handle := handle, tmux_pane_id := handle }
              else m
            | _ => m) members1
        ({ members := members2, inbox := inbox1 },
         .ok { member with process_handle := handle, tmux_pane_id := handle })

/-! ## Task graph: `update_task` and friends (tasks.py) -/

/-- The `blocked_by` list read from `<x>.json`, or `[]` when the file is
absent (`_would_create_cycle` lines 56-59 only traverses existing files). -/
def blockedByOnDisk (d : Disk) (x : String) : List String :=
  match findTask d x with
  | some t => t.blocked_by
  | none => []

/-- The pending (not yet written) edges as `(blocked, blocker)` pairs —
`pending_edges: dict[str, set[str]]` flattened. -/
abbrev PendingEdges := List (String × String)

/-- `pending_edges.get(x, set())`. -/
def pendingOf (p : PendingEdges) (x : String) : List String :=
  List.map Prod.snd (List.filter (fun e => e.1 == x) p)

/-- The BFS loop of `_would_create_cycle` (tasks.py lines 47-65), with
explicit fuel standing for the unbounded `while queue:`; `bfsFuel` below is
proven sufficient, so the `none` (out of fuel) branch is unreachable from
`wouldCreateCycle`. -/
def wccFuel (d : Disk) (pending : PendingEdges) (fromId : String) :
    Nat → List String → List String → Option Bool
  | _, _, [] => some false
  | 0, _, _ :: _ => none
  | fuel + 1, visited, current :: rest =>
    if current = fromId then some true
    else if current ∈ visited then wccFuel d pending fromId fuel visited rest
    else
      let visited1 := current :: visited
      let diskN := List.filter (fun x => ¬ x ∈ visited1) (blockedByOnDisk d current)
      let pendN := List.filter (fun x => ¬ x ∈ visited1) (pendingOf pending current)
      wccFuel d pending fromId fuel visited1 (rest ++ diskN ++ pendN)

/-- Sufficient fuel for the BFS: strictly more than the worst-case number of
queue pops (each pop consumes an enqueued node; enqueues are bounded by the
initial node plus the degrees of the distinct visited nodes). -/
def bfsFuel (d : Disk) (pending : PendingEdges) : Nat :=
  let e := (List.map (fun t => t.blocked_by.length) d).sum
  let p := pending.length
  (1 + e + p) * (e + p + 1) + 2

/-- `_would_create_cycle` (tasks.py lines 30-65): true iff making `fromId`
blocked by `toId` creates a cycle, by BFS from `toId` through `blocked_by`
chains (on-disk plus pending). -/
def wouldCreateCycle (d : Disk) (fromId toId : String) (pending : PendingEdges) : Bool :=
  (wccFuel d pending fromId (bfsFuel d pending) [] [toId]).getD false

/-- The keyword arguments of `update_task` (tasks.py lines 236-248).  A
Python `add_blocks=None` and `add_blocks=[]` behave identically (both falsy),
so both are the empty list here; `status` is a string, as an invalid one must
reach the `Invalid status` check. -/
structure UpdateArgs where
  status : Option String := none
  owner : Option String := none
  subject : Option String := none
  description : Option String := none
  active_form : Option String := none
  add_blocks : List String := []
  add_blocked_by : List String := []
  metadata : Option (List (String × Option MetaVal)) := none
deriving DecidableEq, Repr

/-- The distinguishable exceptions `update_task` raises (one constructor per
`raise` site; `statusKeyErr` is the `KeyError` of `_STATUS_ORDER[task.status]`
on a task whose stored status is `deleted`, unreachable through the store's
own writes). -/
inductive UpdateError where
  | taskNotFound (id : String)
  | selfBlock (id : String)
  | selfBlockedBy (id : String)
  | refNotFound (id : String)
  | circularBlock (taskId blockedId : String)
  | circularBlockedBy (taskId blockerId : String)
  | statusKeyErr
  | invalidStatus (s : String)
  | backwardTransition (cur new : String)
  | unsatisfiedBlocker (blockerId : String) (st : String)
deriving DecidableEq, Repr

/-- The two self/existence validation loops of phase 2 (tasks.py lines
284-289 and 293-298). -/
def checkDepIds (d : Disk) (taskId : String) (ids : List String)
    (mkSelf mkMissing : String → UpdateError) : Except UpdateError Unit :=
  List.forM ids (fun b =>
    if b = taskId then Except.error (mkSelf b)
    else if taskExists d b then Except.ok ()
    else Except.error (mkMissing b))

/-- `pending_edges` as built by phase 2 (tasks.py lines 290-291, 299-300):
for `add_blocks`, each new blocked task is blocked by `taskId`; for
`add_blocked_by`, `taskId` is blocked by each new blocker. -/
def pendingEdges (taskId : String) (a : UpdateArgs) : PendingEdges :=
  List.map (fun b => (b, taskId)) a.add_blocks ++
    List.map (fun c => (taskId, c)) a.add_blocked_by

/-- The two cycle-check loops of phase 2 (tasks.py lines 302-314). -/
def cycleChecks (d : Disk) (taskId : String) (a : UpdateArgs) :
    Except UpdateError Unit := do
  let p := pendingEdges taskId a
  List.forM a.add_blocks (fun b =>
    if wouldCreateCycle d b taskId p then
      Except.error (.circularBlock taskId b)
    else Except.ok ())
  List.forM a.add_blocked_by (fun c =>
    if wouldCreateCycle d taskId c p then
      Except.error (.circularBlockedBy taskId c)
    else Except.ok ())

/-- The status validation of phase 2 (tasks.py lines 316-337): transition
ordering, then the unsatisfied-blocker guard over
`effective_blocked_by = set(task.blocked_by) | set(add_blocked_by)`. -/
def statusChecks (d : Disk) (task : TaskFile) (a : UpdateArgs) :
    Except UpdateError Unit :=
  match a.status with
  | none => Except.ok ()
  | some s =>
    if s = "deleted" then Except.ok ()
    else
      match statusOrder task.status.str with
      | none => Except.error .statusKeyErr
      | some curOrder =>
        match statusOrder s with
        | none => Except.error (.invalidStatus s)
        | some newOrder =>
          if newOrder < curOrder then
            Except.error (.backwardTransition task.status.str s)
          else
            let eff := (task.blocked_by ++ a.add_blocked_by).dedup
            if s = "in_progress" ∨ s = "completed" then
              List.forM eff (fun b =>
                match findTask d b with
                | some blocker =>
                  if blocker.status ≠ .completed then
                    Except.error (.unsatisfiedBlocker b blocker.status.str)
                  else Except.ok ()
                | none => Except.ok ())
            else Except.ok ()

/-- All of phase 2 in source order. -/
def validatePhase (d : Disk) (taskId : String) (task : TaskFile) (a : UpdateArgs) :
    Except UpdateError Unit := do
  checkDepIds d taskId a.add_blocks .selfBlock .refNotFound
  checkDepIds d taskId a.add_blocked_by .selfBlockedBy .refNotFound
  cycleChecks d taskId a
  statusChecks d task a

/-- A dependency-list field of a task (`"blocks"` / `"blocked_by"` passed to
`_link_dependency` and `_remove_task_references` as attribute names). -/
inductive DepField where
  | blocks
  | blockedBy
deriving DecidableEq, Repr

/-- `getattr(task, field)`. -/
def DepField.get : DepField → TaskFile → List String
  | .blocks, t => t.blocks
  | .blockedBy, t => t.blocked_by

/-- Writing the list field back. -/
def DepField.set : DepField → TaskFile → List String → TaskFile
  | .blocks, t, l => { t with blocks := l }
  | .blockedBy, t, l => { t with blocked_by := l }

/-- `pending_writes: dict[Path, TaskFile]`, keyed by the file's id. -/
abbrev PW := List (String × TaskFile)

/-- `pending_writes.get(path)`. -/
def pwLookup (pw : PW) (i : String) : Option TaskFile :=
  List.lookup i pw

/-- `pending_writes[path] = t` (dict assignment: replace or append). -/
def pwInsert (pw : PW) (i : String) (t : TaskFile) : PW :=
  if (List.lookup i pw).isSome then
    List.map (fun e => if e.1 == i then (i, t) else e) pw
  else
    pw ++ [(i, t)]

/-- Append-if-absent, the dedup discipline of `_link_dependency`. -/
def addUnique (l : List String) (a : String) : List String :=
  if a ∈ l then l else l ++ [a]

/-- Placeholder for a dependency read that cannot fail: phase 2 has already
checked that every dep id exists on disk, so the `getD` of this value in
`linkDependency` is never taken. -/
def defaultTask (i : String) : TaskFile :=
  { id := i, subject := "", description := "" }

/-- `_link_dependency` (tasks.py lines 157-194): append each dep id to the
task's forward field (dedup) and the task's id to the dep's inverse field
(dedup), reading the dep from the pending-writes cache or disk, and recording
it in pending writes. -/
def linkDependency (d : Disk) (taskId : String) (depIds : List String)
    (fwd inv : DepField) (task : TaskFile) (pw : PW) : TaskFile × PW :=
  List.foldl
    (fun (acc : TaskFile × PW) dep =>
      let task1 := fwd.set acc.1 (addUnique (fwd.get acc.1) dep)
      let other := (pwLookup acc.2 dep).getD ((findTask d dep).getD (defaultTask dep))
      let other1 := inv.set other (addUnique (inv.get other) taskId)
      (task1, pwInsert acc.2 dep other1))
    (task, pw) depIds

/-- `_remove_task_references` (tasks.py lines 197-233): for every sibling
task file with an integer stem, remove `taskId` from the named list fields
(first occurrence, as `list.remove`), recording changed tasks in pending
writes. -/
def removeTaskReferences (taskId : String) (d : Disk) (fields : List DepField)
    (pw : PW) : PW :=
  List.foldl
    (fun pw t =>
      if (pyInt t.id).isNone then pw
      else if t.id = taskId then pw
      else
        let other := (pwLookup pw t.id).getD t
        let changed := List.any fields (fun f => List.contains (f.get other) taskId)
        let other1 := List.foldl (fun o f => f.set o ((f.get o).erase taskId)) other fields
        if changed then pwInsert pw t.id other1 else pw)
    pw d

/-- The scalar field updates of phase 3 (tasks.py lines 342-349). -/
def applyScalars (task : TaskFile) (a : UpdateArgs) : TaskFile :=
  let task := match a.subject with | some v => { task with subject := v } | none => task
  let task := match a.description with | some v => { task with description := v } | none => task
  let task := match a.active_form with | some v => { task with active_form := v } | none => task
  match a.owner with | some v => { task with owner := some v } | none => task

/-- `dict.pop(key, None)`. -/
def eraseKey (l : List (String × MetaVal)) (k : String) : List (String × MetaVal) :=
  List.filter (fun e => ¬ e.1 == k) l

/-- `dict[key] = value` (update in place or append). -/
def setKey (l : List (String × MetaVal)) (k : String) (v : MetaVal) :
    List (String × MetaVal) :=
  if (List.lookup k l).isSome then
    List.map (fun e => if e.1 == k then (k, v) else e) l
  else
    l ++ [(k, v)]

/-- The metadata merge of phase 3 (tasks.py lines 373-380): `None` deletes a
key, all-empty metadata becomes absent. -/
def applyMetadata (task : TaskFile) (a : UpdateArgs) : TaskFile :=
  match a.metadata with
  | none => task
  | some entries =>
    let current := task.metadata.getD []
    let merged := List.foldl
      (fun cur e =>
        match e.2 with
        | none => eraseKey cur e.1
        | some v => setKey cur e.1 v)
      current entries
    { task with metadata := if merged = [] then none else some merged }

/-- Phase 3 (tasks.py lines 339-393) in source order: scalars, `add_blocks`
links, `add_blocked_by` links, metadata merge, then the status-specific
cleanup of sibling references. -/
def mutatePhase (d : Disk) (taskId : String) (task0 : TaskFile) (a : UpdateArgs) :
    TaskFile × PW :=
  let task := applyScalars task0 a
  let step1 :=
    if a.add_blocks ≠ [] then
      linkDependency d taskId a.add_blocks .blocks .blockedBy task []
    else (task, ([] : PW))
  let step2 :=
    if a.add_blocked_by ≠ [] then
      linkDependency d taskId a.add_blocked_by .blockedBy .blocks step1.1 step1.2
    else step1
  let task := applyMetadata step2.1 a
  let pw := step2.2
  match a.status with
  | none => (task, pw)
  | some s =>
    if s ≠ "deleted" then
      let task := { task with status := (parseStatus s).getD task.status }
      if s = "completed" then (task, removeTaskReferences taskId d [.blockedBy] pw)
      else (task, pw)
    else
      let task := { task with status := .deleted }
      (task, removeTaskReferences taskId d [.blockedBy, .blocks] pw)

/-- `_flush_pending_writes` (tasks.py lines 23-27). -/
def applyPendingWrites (d : Disk) (pw : PW) : Disk :=
  List.foldl (fun d e => writeTask d e.2) d pw

/-- `update_task` (tasks.py lines 236-405).  Returns the disk after the call
together with the Python return value or exception; every `raise` happens
before phase 4, so the disk component is the input on error. -/
def updateTask (d : Disk) (taskId : String) (a : UpdateArgs) :
    Disk × Except UpdateError TaskFile :=
  match findTask d taskId with
  | none => (d, .error (.taskNotFound taskId))
  | some task =>
    match validatePhase d taskId task a with
    | .error e => (d, .error e)
    | .ok _ =>
      let m := mutatePhase d taskId task a
      if a.status = some "deleted" then
        (removeTask (applyPendingWrites d m.2) taskId, .ok m.1)
      else
        (applyPendingWrites (writeTask d m.1) m.2, .ok m.1)

/-- `create_task` (tasks.py lines 88-133); `teamExistsFlag` stands for the
filesystem check `team_exists` of the missing `claude_teams.teams` module. -/
def createTask (teamExistsFlag : Bool) (d : Disk)
    (subject description active_form : String)
    (metadata : Option (List (String × MetaVal))) :
    Disk × Except String TaskFile :=
  if subject.data.all isPySpace then (d, .error "Task subject must not be empty")
  else if ¬ teamExistsFlag then (d, .error "Team does not exist")
  else
    let task : TaskFile :=
      { id := nextTaskId d, subject := subject, description := description,
        active_form := active_form, status := .pending, metadata := metadata }
    (writeTask d task, .ok task)

/-- `reset_owner_tasks` (tasks.py lines 435-461). -/
def resetOwnerTasks (d : Disk) (agentName : String) : Disk :=
  List.map
    (fun t =>
      if (pyInt t.id).isSome ∧ t.owner = some agentName then
        { t with
          status := if t.status ≠ .completed then .pending else t.status,
          owner := none }
      else t)
    d

/-! ## Shared concrete fixtures for witnesses and counterexamples -/

/-- A fresh pending task with id 1. -/
def exT1 : TaskFile := { id := "1", subject := "a", description := "" }

/-- A fresh pending task with id 2. -/
def exT2 : TaskFile := { id := "2", subject := "b", description := "" }

/-- A concrete worker record. -/
def exWorker (n : String) : TeammateRec :=
  { agent_id := n ++ "@t", name := n, agent_type := "general-purpose",
    model := "sonnet", prompt := "p", color := "blue", joined_at := 0,
    tmux_pane_id := "", cwd := "/" }

/-- A team config holding the lead and eight workers. -/
def exMembers9 : List Member :=
  Member.lead "team-lead@t" "team-lead" ::
    List.map (fun n => Member.teammate (exWorker n))
      ["a", "b", "c", "d", "e", "f", "g", "h"]

/-! ## Claim C9: worker color assignment -/

/-- C9: the color assigned to a newly spawned worker is `palette[W mod 8]`
where `W` is the number of worker (non-lead) members already in the team
config and the palette is the ordered list blue, green, yellow, purple,
orange, pink, cyan, red; hence the 9th worker (`W = 8`) receives blue
again. -/
theorem claim_C9 (members : List Member) :
    COLOR_PALETTE = ["blue", "green", "yellow", "purple", "orange", "pink", "cyan", "red"]
    ∧ assignColor members =
        List.getD COLOR_PALETTE
          ((List.filter Member.isTeammate members).length % 8) ""
    ∧ ((List.filter Member.isTeammate members).length = 8 →
        assignColor members = "blue") := by
  refine ⟨rfl, rfl, fun h => ?_⟩
  unfold assignColor
  rw [h]
  rfl

/-- Witness for C9 at a config with eight workers. -/
theorem claim_C9_witness :
    (List.filter Member.isTeammate exMembers9).length = 8
    ∧ assignColor exMembers9 = "blue" :=
  ⟨by rfl, (claim_C9 exMembers9).2.2 (by rfl)⟩

/-! ## Claim C8: one-shot relay cleanup -/

/-- C8 counterexample: with no collected output and the deadline passed, the
relay delivers the `teammate_timeout` message and returns early — it neither
deletes the configured result file nor calls `backend.kill`, refuting the
claim that the cleanup phase runs after every delivery. -/
theorem claim_C8_counterexample :
    (relayDeliver "worker" "codex" "" true true true).sentSummary = "teammate_timeout"
    ∧ (relayDeliver "worker" "codex" "" true true true).fileDeleted = false
    ∧ (relayDeliver "worker" "codex" "" true true true).killCalled = false := by
  refine ⟨rfl, rfl, rfl⟩

/-- C8 (amended): after the delivery phase, the relay deletes the result file
(when one is configured) and calls `backend.kill` (when the backend resolved)
in the no-output-notice and `teammate_result` cases; the `teammate_timeout`
branch instead returns early, deleting no file and killing nothing. -/
theorem claim_C8 (agentName backendType text : String)
    (deadlinePassed hasResultFile backendAvailable : Bool) :
    (¬ (text = "" ∧ deadlinePassed = true) →
      (relayDeliver agentName backendType text deadlinePassed hasResultFile
        backendAvailable).sentSummary = "teammate_result"
      ∧ (relayDeliver agentName backendType text deadlinePassed hasResultFile
          backendAvailable).fileDeleted = hasResultFile
      ∧ (relayDeliver agentName backendType text deadlinePassed hasResultFile
          backendAvailable).killCalled = backendAvailable)
    ∧ ((text = "" ∧ deadlinePassed = true) →
      (relayDeliver agentName backendType text deadlinePassed hasResultFile
        backendAvailable).sentSummary = "teammate_timeout"
      ∧ (relayDeliver agentName backendType text deadlinePassed hasResultFile
          backendAvailable).sentText
          = agentName ++ " timed out before producing output."
      ∧ (relayDeliver agentName backendType text deadlinePassed hasResultFile
          backendAvailable).fileDeleted = false
      ∧ (relayDeliver agentName backendType text deadlinePassed hasResultFile
          backendAvailable).killCalled = false) := by
  constructor
  · intro h
    simp [relayDeliver, if_neg h]
  · intro h
    simp [relayDeliver, if_pos h]

/-- Witness for C8 at an input with collected output. -/
theorem claim_C8_witness :
    ¬ (("hello" : String) = "" ∧ true = true)
    ∧ ((relayDeliver "w" "codex" "hello" true true false).sentSummary = "teammate_result"
       ∧ (relayDeliver "w" "codex" "hello" true true false).fileDeleted = true
       ∧ (relayDeliver "w" "codex" "hello" true true false).killCalled = false) :=
  ⟨by simp, (claim_C8 "w" "codex" "hello" true true false).1 (by simp)⟩

/-! ## Claim C10: spawn rollback leaves the mailbox untouched -/

theorem addMember_fresh (ms : List Member) (m : Member)
    (h : ∀ x ∈ ms, Member.name x ≠ Member.name m) :
    addMember ms m = Except.ok (ms ++ [m]) := by
  unfold addMember
  rw [if_neg]
  intro hc
  rw [List.any_eq_true] at hc
  obtain ⟨x, hx, hbeq⟩ := hc
  exact h x hx (by simpa using hbeq)

theorem removeMember_not_lead (ms : List Member) (n : String)
    (h : n ≠ "team-lead") :
    removeMember ms n = Except.ok (List.filter (fun m => ¬ Member.name m == n) ms) := by
  unfold removeMember
  rw [if_neg h]

theorem filter_ne_name (ms : List Member) (n : String)
    (h : ∀ x ∈ ms, Member.name x ≠ n) :
    List.filter (fun m => ¬ Member.name m == n) ms = ms := by
  rw [List.filter_eq_self]
  intro m hm
  simpa using h m hm

/-- C10: when `backend.spawn` raises after the member was registered, the
rollback removes only the member record from the team config; the
initial-prompt message appended to the new agent's mailbox before spawning
remains in the mailbox file. -/
theorem claim_C10 (st : SpawnState)
    (teamName name prompt model subagentType backendName : String)
    (planModeRequired : Bool) (joinedAtMs : Int) (cwd timestampNow : String)
    (hname : validNameChars name = true) (hlen : name.length ≤ 64)
    (hres : name ≠ "team-lead")
    (hfresh : ∀ m ∈ st.members, Member.name m ≠ name) :
    (∃ e, (spawnTeammateTool st teamName name prompt model subagentType
        backendName planModeRequired joinedAtMs cwd timestampNow none).2
        = Except.error e)
    ∧ (spawnTeammateTool st teamName name prompt model subagentType
        backendName planModeRequired joinedAtMs cwd timestampNow none).1.members
        = st.members
    ∧ (spawnTeammateTool st teamName name prompt model subagentType
        backendName planModeRequired joinedAtMs cwd timestampNow none).1.inbox
        = st.inbox ++
            [{ from_ := "team-lead", text := prompt,
               timestamp := timestampNow, read := false }] := by
  have h1 : ∀ x ∈ st.members, Member.name x ≠ name := hfresh
  simp only [spawnTeammateTool]
  rw [if_neg (show ¬ ¬ validNameChars name = true by simp [hname]),
    if_neg (show ¬ 64 < name.length by omega), if_neg hres]
  rw [addMember_fresh st.members _ (fun x hx => by
    simpa [Member.name] using h1 x hx)]
  simp only [removeMember_not_lead _ _ hres, Except.toOption, Option.getD,
    List.filter_append, filter_ne_name st.members name h1]
  refine ⟨⟨"Backend spawn failed", ?_⟩, ?_, ?_⟩ <;>
    simp [Member.name]

/-- A one-member (lead-only) spawn state. -/
def exSpawnState : SpawnState :=
  { members := [Member.lead "team-lead@t" "team-lead"], inbox := [] }

/-- Witness for C10: spawning `bob` into a lead-only team with a failing
backend spawn. -/
theorem claim_C10_witness :
    validNameChars "bob" = true
    ∧ (spawnTeammateTool exSpawnState "t" "bob" "do it" "sonnet"
        "general-purpose" "codex" false 0 "/" "ts" none).1.members
        = exSpawnState.members
    ∧ (spawnTeammateTool exSpawnState "t" "bob" "do it" "sonnet"
        "general-purpose" "codex" false 0 "/" "ts" none).1.inbox
        = [{ from_ := "team-lead", text := "do it", timestamp := "ts",
             read := false }] := by
  refine ⟨by decide, ?_, ?_⟩
  · exact (claim_C10 exSpawnState "t" "bob" "do it" "sonnet" "general-purpose"
      "codex" false 0 "/" "ts" (by decide) (by decide) (by decide)
      (by
        intro m hm
        simp [exSpawnState] at hm
        subst hm
        simp [Member.name])).2.1
  · have h := (claim_C10 exSpawnState "t" "bob" "do it" "sonnet"
      "general-purpose" "codex" false 0 "/" "ts" (by decide) (by decide) (by decide)
      (by
        intro m hm
        simp [exSpawnState] at hm
        subst hm
        simp [Member.name])).2.2
    simpa [exSpawnState] using h

/-! ## Claim C1: failed validation leaves the disk unchanged -/

/-- C1: every `update_task` call that raises (in particular every phase-2
validation failure: self-reference, missing referenced task, circular
dependency, invalid or backward status transition, unsatisfied blocker)
leaves the task graph on disk exactly as it was. -/
theorem claim_C1 (d : Disk) (taskId : String) (a : UpdateArgs) (e : UpdateError)
    (h : (updateTask d taskId a).2 = Except.error e) :
    (updateTask d taskId a).1 = d := by
  cases hf : findTask d taskId with
  | none => simp [updateTask, hf]
  | some t =>
    cases hv : validatePhase d taskId t a with
    | error e' => simp [updateTask, hf, hv]
    | ok u =>
      exfalso
      simp only [updateTask, hf, hv] at h
      split at h <;> simp at h

/-- Witness for C1: a self-referencing `add_blocks` fails and the one-task
disk is unchanged. -/
theorem claim_C1_witness :
    (updateTask [exT1] "1" { add_blocks := ["1"] }).2
      = Except.error (UpdateError.selfBlock "1")
    ∧ (updateTask [exT1] "1" { add_blocks := ["1"] }).1 = [exT1] :=
  ⟨by rfl,
   claim_C1 [exT1] "1" { add_blocks := ["1"] } (UpdateError.selfBlock "1") (by rfl)⟩

/-! ## Claim C7: atomic read-and-mark in `read_inbox` -/

theorem markRead_of_read {m : InboxMessage} (h : m.read = true) :
    markRead m = m := by
  cases m
  simp_all [markRead]

theorem markRead_idem (m : InboxMessage) :
    markRead (markRead m) = markRead m := rfl

theorem set_getD_self_msg (l : List InboxMessage) (i : Nat) (h : i < l.length) :
    l.set i (l.getD i defaultMsg) = l := by
  apply List.ext_getElem
  · simp
  · intro j h1 h2
    rw [List.getElem_set]
    split
    · next heq =>
      subst heq
      rw [List.getD_eq_getElem l defaultMsg h]
    · rfl

/-- What a single `markStep` does to the state, given the loop invariants. -/
theorem markStep_cases (msgs : List InboxMessage) (idxs : List Nat)
    (_hidx : ∀ j ∈ idxs, j < msgs.length)
    (hunread : ∀ i, i < msgs.length → i ∉ idxs →
      (List.getD msgs i defaultMsg).read = true)
    (st : List InboxMessage) (k : Nat)
    (hlen : st.length = msgs.length)
    (hq : ∀ i, i ∉ idxs → List.getD st i defaultMsg = List.getD msgs i defaultMsg)
    (hp : ∀ i ∈ idxs, List.getD st i defaultMsg = List.getD msgs i defaultMsg ∨
      List.getD st i defaultMsg = markRead (List.getD msgs i defaultMsg)) :
    (k ∈ idxs →
      markStep idxs st k
        = st.set k (markRead (List.getD msgs k defaultMsg)))
    ∧ (k ∉ idxs → markStep idxs st k = st) := by
  constructor
  · intro hk
    have hcond : List.any idxs
        (fun j => decide (List.getD st j defaultMsg = List.getD st k defaultMsg))
        = true := by
      rw [List.any_eq_true]
      exact ⟨k, hk, by simp⟩
    unfold markStep
    rw [if_pos hcond]
    rcases hp k hk with h1 | h1 <;> rw [h1]
    rfl
  · intro hk
    simp only [markStep]
    rcases Nat.lt_or_ge k msgs.length with hklt | hkge
    · have hcur : List.getD st k defaultMsg = List.getD msgs k defaultMsg := hq k hk
      by_cases hc : (List.any idxs
          fun j => decide (List.getD st j defaultMsg = List.getD st k defaultMsg)) = true
      · rw [if_pos hc, hcur, markRead_of_read (hunread k hklt hk)]
        rw [← hcur]
        exact set_getD_self_msg st k (by omega)
      · rw [if_neg hc]
    · have hle : st.length ≤ k := by omega
      by_cases hc : (List.any idxs
          fun j => decide (List.getD st j defaultMsg = List.getD st k defaultMsg)) = true
      · rw [if_pos hc]
        exact List.set_eq_of_length_le hle
      · rw [if_neg hc]

/-- The marking loop invariant, by induction over the remaining indices. -/
theorem markFold_spec (msgs : List InboxMessage) (idxs : List Nat)
    (hidx : ∀ j ∈ idxs, j < msgs.length)
    (hunread : ∀ i, i < msgs.length → i ∉ idxs →
      (List.getD msgs i defaultMsg).read = true) :
    ∀ (ks : List Nat) (st : List InboxMessage),
      st.length = msgs.length →
      (∀ i, i ∉ idxs → List.getD st i defaultMsg = List.getD msgs i defaultMsg) →
      (∀ i ∈ idxs, List.getD st i defaultMsg = List.getD msgs i defaultMsg ∨
        List.getD st i defaultMsg = markRead (List.getD msgs i defaultMsg)) →
      (List.foldl (markStep idxs) st ks).length = msgs.length
      ∧ (∀ i, i ∉ idxs →
          List.getD (List.foldl (markStep idxs) st ks) i defaultMsg
            = List.getD msgs i defaultMsg)
      ∧ (∀ i ∈ idxs, i ∈ ks →
          List.getD (List.foldl (markStep idxs) st ks) i defaultMsg
            = markRead (List.getD msgs i defaultMsg))
      ∧ (∀ i ∈ idxs,
          List.getD st i defaultMsg = markRead (List.getD msgs i defaultMsg) →
          List.getD (List.foldl (markStep idxs) st ks) i defaultMsg
            = markRead (List.getD msgs i defaultMsg)) := by
  intro ks
  induction ks with
  | nil =>
    intro st hlen hq hp
    exact ⟨hlen, hq, by simp, fun i _ h => h⟩
  | cons k ks ih =>
    intro st hlen hq hp
    have hstep := markStep_cases msgs idxs hidx hunread st k hlen hq hp
    by_cases hk : k ∈ idxs
    · have hk_lt : k < msgs.length := hidx k hk
      have hrw : markStep idxs st k
          = st.set k (markRead (List.getD msgs k defaultMsg)) := hstep.1 hk
      have hlen1 : (markStep idxs st k).length = msgs.length := by
        rw [hrw, List.length_set]; exact hlen
      have hmarked : List.getD (markStep idxs st k) k defaultMsg
          = markRead (List.getD msgs k defaultMsg) := by
        rw [hrw, List.getD_eq_getElem _ _ (by rw [List.length_set]; omega)]
        exact List.getElem_set_self _
      have hother : ∀ i, i ≠ k →
          List.getD (markStep idxs st k) i defaultMsg
            = List.getD st i defaultMsg := by
        intro i hne
        rw [hrw]
        rcases Nat.lt_or_ge i st.length with hi | hi
        · rw [List.getD_eq_getElem _ _ (by rw [List.length_set]; omega),
            List.getD_eq_getElem _ _ hi]
          exact List.getElem_set_ne (fun h => hne h.symm) _
        · rw [List.getD_eq_default _ _ (by rw [List.length_set]; omega),
            List.getD_eq_default _ _ hi]
      have hq1 : ∀ i, i ∉ idxs →
          List.getD (markStep idxs st k) i defaultMsg
            = List.getD msgs i defaultMsg := by
        intro i hi
        rw [hother i (fun h => hi (h ▸ hk))]
        exact hq i hi
      have hp1 : ∀ i ∈ idxs,
          List.getD (markStep idxs st k) i defaultMsg
            = List.getD msgs i defaultMsg ∨
          List.getD (markStep idxs st k) i defaultMsg
            = markRead (List.getD msgs i defaultMsg) := by
        intro i hi
        by_cases hik : i = k
        · subst hik; exact Or.inr hmarked
        · rw [hother i hik]; exact hp i hi
      obtain ⟨c1, c2, c3, c4⟩ := ih (markStep idxs st k) hlen1 hq1 hp1
      refine ⟨c1, c2, ?_, ?_⟩
      · intro i hi hiks
        rcases List.mem_cons.mp hiks with h | h
        · subst h; exact c4 i hi hmarked
        · exact c3 i hi h
      · intro i hi hm
        apply c4 i hi
        by_cases hik : i = k
        · subst hik; exact hmarked
        · rw [hother i hik]; exact hm
    · have hrw : markStep idxs st k = st := hstep.2 hk
      obtain ⟨c1, c2, c3, c4⟩ := ih (markStep idxs st k)
        (by rw [hrw]; exact hlen) (by rw [hrw]; exact hq) (by rw [hrw]; exact hp)
      refine ⟨c1, c2, ?_, ?_⟩
      · intro i hi hiks
        rcases List.mem_cons.mp hiks with h | h
        · exact absurd (h ▸ hi) hk
        · exact c3 i hi h
      · intro i hi hm
        apply c4 i hi
        rw [hrw]; exact hm

theorem resultIdxs_lt (msgs : List InboxMessage) (unreadOnly : Bool) :
    ∀ j ∈ resultIdxs msgs unreadOnly, j < msgs.length := by
  intro j hj
  have := List.mem_filter.mp hj
  exact List.mem_range.mp this.1

theorem resultIdxs_unread (msgs : List InboxMessage) (unreadOnly : Bool) :
    ∀ i, i < msgs.length → i ∉ resultIdxs msgs unreadOnly →
      (List.getD msgs i defaultMsg).read = true := by
  intro i hi hni
  by_contra hread
  apply hni
  rw [resultIdxs, List.mem_filter]
  refine ⟨List.mem_range.mpr hi, ?_⟩
  have hfalse : (List.getD msgs i defaultMsg).read = false := by
    cases h : (List.getD msgs i defaultMsg).read
    · rfl
    · exact absurd h hread
  rw [List.getD_eq_getElem?_getD] at hfalse
  simp [hfalse]

/-- C7: a `read_inbox` call with `mark_as_read=true` is all-or-nothing:
either it returns a non-empty list of messages and exactly the returned
messages are flipped to `read=true` in the rewritten mailbox (all other
records byte-identical), or it returns the empty list and the mailbox file
is not rewritten at all. -/
theorem claim_C7 (msgs : List InboxMessage) (unreadOnly : Bool) :
    ((readInbox msgs unreadOnly true).1 = [] →
      (readInbox msgs unreadOnly true).2.1 = msgs
      ∧ (readInbox msgs unreadOnly true).2.2 = false)
    ∧ ((readInbox msgs unreadOnly true).1 ≠ [] →
      (readInbox msgs unreadOnly true).2.2 = true
      ∧ (readInbox msgs unreadOnly true).2.1.length = msgs.length
      ∧ (∀ i ∈ resultIdxs msgs unreadOnly,
          List.getD (readInbox msgs unreadOnly true).2.1 i defaultMsg
            = markRead (List.getD msgs i defaultMsg))
      ∧ (∀ i, i ∉ resultIdxs msgs unreadOnly →
          List.getD (readInbox msgs unreadOnly true).2.1 i defaultMsg
            = List.getD msgs i defaultMsg)
      ∧ (readInbox msgs unreadOnly true).1
          = List.map
              (fun i => List.getD (readInbox msgs unreadOnly true).2.1 i defaultMsg)
              (resultIdxs msgs unreadOnly)) := by
  by_cases hidxs : resultIdxs msgs unreadOnly = []
  · constructor
    · intro _
      simp [readInbox, hidxs]
    · intro h
      exfalso
      apply h
      simp [readInbox, hidxs]
  · have hspec := markFold_spec msgs (resultIdxs msgs unreadOnly)
      (resultIdxs_lt msgs unreadOnly) (resultIdxs_unread msgs unreadOnly)
      (List.range msgs.length) msgs rfl (fun _ _ => rfl) (fun i _ => Or.inl rfl)
    obtain ⟨c1, c2, c3, c4⟩ := hspec
    have hread_eq : readInbox msgs unreadOnly true
        = (List.map (fun i => List.getD (markLoop msgs (resultIdxs msgs unreadOnly)) i defaultMsg)
            (resultIdxs msgs unreadOnly),
           markLoop msgs (resultIdxs msgs unreadOnly), true) := by
      simp [readInbox, hidxs]
    constructor
    · intro h
      exfalso
      rw [hread_eq] at h
      simp only [] at h
      exact hidxs (List.map_eq_nil_iff.mp h)
    · intro _
      rw [hread_eq]
      refine ⟨rfl, c1, ?_, c2, rfl⟩
      intro i hi
      exact c3 i hi (List.mem_range.mpr (resultIdxs_lt msgs unreadOnly i hi))

/-- Witness for C7 on a two-message mailbox with one unread message. -/
theorem claim_C7_witness :
    (readInbox [{ from_ := "a", text := "x", timestamp := "t0", read := true },
        { from_ := "b", text := "y", timestamp := "t1", read := false }]
        true true).1 ≠ []
    ∧ (readInbox [{ from_ := "a", text := "x", timestamp := "t0", read := true },
        { from_ := "b", text := "y", timestamp := "t1", read := false }]
        true true).2.2 = true := by
  refine ⟨by decide, ?_⟩
  exact ((claim_C7 [{ from_ := "a", text := "x", timestamp := "t0", read := true },
      { from_ := "b", text := "y", timestamp := "t1", read := false }]
      true).2 (by decide)).1

/-! ## Claim C6: task id allocation -/

theorem mem_intIds {d : Disk} {t : TaskFile} {k : Int}
    (ht : t ∈ d) (hk : pyInt t.id = some k) : k ∈ intIds d :=
  List.mem_filterMap.mpr ⟨t, ht, hk⟩

theorem intIds_le_max {d : Disk} {k m : Int}
    (hk : k ∈ intIds d) (hmax : (intIds d).max? = some m) : k ≤ m := by
  have hcond : ∀ a b c : Int, max b c ≤ a ↔ b ≤ a ∧ c ≤ a := by
    intro a b c; exact max_le_iff
  exact ((List.max?_le_iff hcond hmax).mp (le_refl m)) k hk

/-- C6 counterexample: on a team with tasks 1 and 2, deleting task 2 (the
highest id) makes the next allocation `"2"` — the deleted id is reused, not
`max + 1 = "3"`. -/
theorem claim_C6_counterexample :
    (updateTask [exT1, exT2] "2" { status := some "deleted" }).1 = [exT1]
    ∧ nextTaskId ((updateTask [exT1, exT2] "2" { status := some "deleted" }).1) = "2"
    ∧ nextTaskId [exT1, exT2] = "3"
    ∧ (createTask true ((updateTask [exT1, exT2] "2"
        { status := some "deleted" }).1) "s" "" "" none).2
        = Except.ok { id := "2", subject := "s", description := "",
                      active_form := "", status := .pending, metadata := none }
    ∧ ("2" : String) ≠ "3" := by
  refine ⟨by rfl, by rfl, by rfl, by rfl, by decide⟩

/-- C6 (amended): the id allocated by `create_task` is `max(existing integer
ids) + 1` (`1` when none), strictly greater than every id currently on disk;
but after deleting the task holding the unique maximal id `m`, the next
allocation drops back to at most `m` — the deleted id can be reused, so ids
are not strictly increasing across deletions of the maximum. -/
theorem claim_C6 (d : Disk) :
    (∀ t ∈ d, ∀ k : Int, pyInt t.id = some k → k < nextTaskIdVal d)
    ∧ nextTaskId d = toString (nextTaskIdVal d)
    ∧ (∀ subject description af md, subject.data.all isPySpace = false →
        ∃ t, (createTask true d subject description af md).2 = Except.ok t
          ∧ t.id = nextTaskId d)
    ∧ (∀ t ∈ d, ∀ m : Int, pyInt t.id = some m → 1 ≤ m →
        (∀ t' ∈ d, t' ≠ t → ∀ k : Int, pyInt t'.id = some k → k < m) →
        nextTaskIdVal (removeTask d t.id) ≤ m) := by
  refine ⟨?_, rfl, ?_, ?_⟩
  · intro t ht k hk
    have hkmem : k ∈ intIds d := mem_intIds ht hk
    have hne : intIds d ≠ [] := fun h => by simp [h] at hkmem
    cases hmax : (intIds d).max? with
    | none => exact absurd (List.max?_eq_none_iff.mp hmax) hne
    | some m =>
      have hle := intIds_le_max hkmem hmax
      have hval : nextTaskIdVal d = m + 1 := by simp [nextTaskIdVal, hmax]
      omega
  · intro subject description af md hsub
    refine ⟨{ id := nextTaskId d, subject := subject, description := description,
              active_form := af, status := .pending, metadata := md }, ?_, rfl⟩
    unfold createTask
    rw [if_neg (by simp [hsub]), if_neg (by simp)]
  · intro t ht m hm h1 hmaxlt
    have hsub : ∀ k ∈ intIds (removeTask d t.id), k < m := by
      intro k hk
      obtain ⟨t', ht', hk'⟩ := List.mem_filterMap.mp hk
      have ht2mem := List.mem_filter.mp ht'
      have hne : t' ≠ t := by
        intro he
        subst he
        simp at ht2mem
      exact hmaxlt t' ht2mem.1 hne k hk'
    cases hmax : (intIds (removeTask d t.id)).max? with
    | none =>
      have hval : nextTaskIdVal (removeTask d t.id) = 1 := by
        simp [nextTaskIdVal, hmax]
      omega
    | some m' =>
      have hmem := List.max?_mem (fun a b => max_choice a b) hmax
      have hlt := hsub m' hmem
      have hval : nextTaskIdVal (removeTask d t.id) = m' + 1 := by
        simp [nextTaskIdVal, hmax]
      omega

/-- Witness for C6 on the two-task disk: the allocation bound and the
post-deletion bound at concrete inputs. -/
theorem claim_C6_witness :
    (∀ t ∈ [exT1, exT2], ∀ k : Int, pyInt t.id = some k → k < nextTaskIdVal [exT1, exT2])
    ∧ nextTaskIdVal (removeTask [exT1, exT2] "2") ≤ 2 :=
  ⟨(claim_C6 [exT1, exT2]).1,
   (claim_C6 [exT1, exT2]).2.2.2 exT2 (by decide) 2 (by decide) (by decide)
     (by decide)⟩

/-! ## Except-monad helpers for the validation phases -/

theorem ebind_ok {ε α : Type} (g : Unit → Except ε α) :
    (Except.ok () >>= g) = g () := rfl

theorem ebind_error {ε α : Type} (e : ε) (g : Unit → Except ε α) :
    ((Except.error e : Except ε Unit) >>= g) = Except.error e := rfl

theorem list_forM_cons {ε α : Type} (f : α → Except ε Unit) (a : α)
    (as : List α) :
    List.forM (a :: as) f = (f a >>= fun _ => List.forM as f) := rfl

theorem forM_ok_iff {ε α : Type} (f : α → Except ε Unit) (l : List α) :
    List.forM l f = Except.ok () ↔ ∀ x ∈ l, f x = Except.ok () := by
  induction l with
  | nil => exact ⟨fun _ => by simp, fun _ => rfl⟩
  | cons a as ih =>
    rw [list_forM_cons]
    cases hfa : f a with
    | error e =>
      constructor
      · intro h
        exact absurd (show (Except.error e : Except ε Unit) = Except.ok () from h)
          (by simp)
      · intro h
        exact absurd (h a (by simp)) (by simp [hfa])
    | ok u =>
      cases u
      rw [show ((Except.ok PUnit.unit : Except ε PUnit) >>=
        fun _ => List.forM as f) = List.forM as f from rfl]
      rw [ih]
      constructor
      · intro h x hx
        rcases List.mem_cons.mp hx with h' | h'
        · exact h' ▸ hfa
        · exact h x h'
      · intro h x hx
        exact h x (List.mem_cons_of_mem a hx)

theorem forM_eq_error {ε α : Type} {f : α → Except ε Unit} {l : List α} {e : ε}
    (h : List.forM l f = Except.error e) : ∃ x ∈ l, f x = Except.error e := by
  induction l with
  | nil => exact absurd h (by intro hc; cases hc)
  | cons a as ih =>
    rw [list_forM_cons] at h
    cases hfa : f a with
    | error e' =>
      rw [hfa] at h
      have h2 : (Except.error e' : Except ε Unit) = Except.error e := h
      obtain rfl : e' = e := by cases h2; rfl
      exact ⟨a, by simp, hfa⟩
    | ok u =>
      cases u
      rw [hfa] at h
      have h2 : List.forM as f = Except.error e := h
      obtain ⟨x, hx, hfx⟩ := ih h2
      exact ⟨x, List.mem_cons_of_mem a hx, hfx⟩

theorem forM_error_of_exists {ε α : Type} {f : α → Except ε Unit} {l : List α}
    (h : ∃ x ∈ l, f x ≠ Except.ok ()) : ∃ e, List.forM l f = Except.error e := by
  cases hm : List.forM l f with
  | ok u =>
    cases u
    obtain ⟨x, hx, hfx⟩ := h
    exact absurd ((forM_ok_iff f l).mp hm x hx) hfx
  | error e => exact ⟨e, rfl⟩

/-! ## Claim C2: the unsatisfied-blocker guard -/

/-- `effective_blocked_by` only contains satisfied blockers: every element
refers to a task that is absent from disk or has status `completed`. -/
def blockersSatisfied (d : Disk) (task : TaskFile) (a : UpdateArgs) : Prop :=
  ∀ b ∈ task.blocked_by ++ a.add_blocked_by,
    Option.all (fun t => t.status == TaskStatus.completed) (findTask d b) = true

instance (d : Disk) (task : TaskFile) (a : UpdateArgs) :
    Decidable (blockersSatisfied d task a) := by
  unfold blockersSatisfied; infer_instance

theorem statusChecks_ok_satisfied {d : Disk} {task : TaskFile} {a : UpdateArgs}
    {s : String} (hs : a.status = some s)
    (hio : s = "in_progress" ∨ s = "completed")
    (hok : statusChecks d task a = Except.ok ()) :
    blockersSatisfied d task a := by
  have hsd : s ≠ "deleted" := by rcases hio with h | h <;> subst h <;> decide
  simp only [statusChecks, hs] at hok
  rw [if_neg hsd] at hok
  cases hco : statusOrder task.status.str with
  | none => simp [hco] at hok
  | some co =>
    simp only [hco] at hok
    cases hno : statusOrder s with
    | none => simp [hno] at hok
    | some no =>
      simp only [hno] at hok
      by_cases hlt : no < co
      · simp [if_pos hlt] at hok
      · rw [if_neg hlt, if_pos hio] at hok
        intro b hb
        have hbeff : b ∈ (task.blocked_by ++ a.add_blocked_by).dedup :=
          List.mem_dedup.mpr hb
        have hfb2 := (forM_ok_iff _ _).mp hok b hbeff
        cases hfb : findTask d b with
        | none => simp [Option.all]
        | some blocker =>
          simp only [hfb] at hfb2
          by_cases hbc : blocker.status = TaskStatus.completed
          · simp [Option.all, hfb, hbc]
          · rw [if_pos (by simpa using hbc)] at hfb2
            exact absurd hfb2 (by simp)

theorem statusChecks_err_of_unsatisfied {d : Disk} {task : TaskFile}
    {a : UpdateArgs} {s : String} (hs : a.status = some s)
    (hio : s = "in_progress" ∨ s = "completed")
    (hnot : ¬ blockersSatisfied d task a) :
    ∃ e, statusChecks d task a = Except.error e := by
  have hsd : s ≠ "deleted" := by rcases hio with h | h <;> subst h <;> decide
  simp only [statusChecks, hs]
  rw [if_neg hsd]
  cases hco : statusOrder task.status.str with
  | none => simp only [hco]; exact ⟨_, rfl⟩
  | some co =>
    simp only [hco]
    cases hno : statusOrder s with
    | none => simp only [hno]; exact ⟨_, rfl⟩
    | some no =>
      simp only [hno]
      by_cases hlt : no < co
      · rw [if_pos hlt]; exact ⟨_, rfl⟩
      · rw [if_neg hlt, if_pos hio]
        unfold blockersSatisfied at hnot
        push_neg at hnot
        obtain ⟨b, hb, hbbad⟩ := hnot
        apply forM_error_of_exists
        refine ⟨b, List.mem_dedup.mpr hb, ?_⟩
        cases hfb : findTask d b with
        | none => exact absurd (by simp [hfb, Option.all]) hbbad
        | some blocker =>
          simp only [hfb]
          by_cases hbc : blocker.status = TaskStatus.completed
          · exact absurd (by simp [hfb, Option.all, hbc]) hbbad
          · rw [if_pos (by simpa using hbc)]
            simp

theorem statusChecks_unsat_kind {d : Disk} {task : TaskFile}
    {a : UpdateArgs} {s : String} {co : Nat} (hs : a.status = some s)
    (hio : s = "in_progress" ∨ s = "completed")
    (hco : statusOrder task.status.str = some co)
    (hfwd : ∀ no, statusOrder s = some no → ¬ no < co)
    (hnot : ¬ blockersSatisfied d task a) :
    ∃ b st', statusChecks d task a
      = Except.error (UpdateError.unsatisfiedBlocker b st') := by
  have hsd : s ≠ "deleted" := by rcases hio with h | h <;> subst h <;> decide
  obtain ⟨e, he⟩ := statusChecks_err_of_unsatisfied hs hio hnot
  have he2 := he
  simp only [statusChecks, hs] at he2
  rw [if_neg hsd] at he2
  simp only [hco] at he2
  cases hno : statusOrder s with
  | none => rcases hio with h | h <;> subst h <;> simp [statusOrder] at hno
  | some no =>
    simp only [hno] at he2
    rw [if_neg (hfwd no hno), if_pos hio] at he2
    obtain ⟨x, hx, hfx⟩ := forM_eq_error he2
    cases hfb : findTask d x with
    | none => simp only [hfb] at hfx; exact absurd hfx (by simp)
    | some blocker =>
      simp only [hfb] at hfx
      by_cases hbc : blocker.status ≠ TaskStatus.completed
      · rw [if_pos hbc] at hfx
        cases hfx
        exact ⟨x, blocker.status.str, he⟩
      · rw [if_neg hbc] at hfx
        exact absurd hfx (by simp)

theorem validatePhase_eq_statusChecks {d : Disk} {taskId : String}
    {task : TaskFile} {a : UpdateArgs}
    (h1 : checkDepIds d taskId a.add_blocks .selfBlock .refNotFound = Except.ok ())
    (h2 : checkDepIds d taskId a.add_blocked_by .selfBlockedBy .refNotFound
      = Except.ok ())
    (h3 : cycleChecks d taskId a = Except.ok ()) :
    validatePhase d taskId task a = statusChecks d task a := by
  unfold validatePhase
  rw [h1, ebind_ok, h2, ebind_ok, h3, ebind_ok]

theorem validatePhase_ok_parts {d : Disk} {taskId : String} {task : TaskFile}
    {a : UpdateArgs} (h : validatePhase d taskId task a = Except.ok ()) :
    checkDepIds d taskId a.add_blocks .selfBlock .refNotFound = Except.ok ()
    ∧ checkDepIds d taskId a.add_blocked_by .selfBlockedBy .refNotFound
        = Except.ok ()
    ∧ cycleChecks d taskId a = Except.ok ()
    ∧ statusChecks d task a = Except.ok () := by
  unfold validatePhase at h
  cases h1 : checkDepIds d taskId a.add_blocks .selfBlock .refNotFound with
  | error e => rw [h1, ebind_error] at h; exact absurd h (by simp)
  | ok u =>
    cases u
    rw [h1, ebind_ok] at h
    cases h2 : checkDepIds d taskId a.add_blocked_by .selfBlockedBy
        .refNotFound with
    | error e => rw [h2, ebind_error] at h; exact absurd h (by simp)
    | ok u =>
      cases u
      rw [h2, ebind_ok] at h
      cases h3 : cycleChecks d taskId a with
      | error e => rw [h3, ebind_error] at h; exact absurd h (by simp)
      | ok u =>
        cases u
        rw [h3, ebind_ok] at h
        exact ⟨rfl, rfl, rfl, h⟩

theorem updateTask_snd_of_validate_err {d : Disk} {taskId : String}
    {t0 : TaskFile} {a : UpdateArgs} {e : UpdateError}
    (hfind : findTask d taskId = some t0)
    (hv : validatePhase d taskId t0 a = Except.error e) :
    (updateTask d taskId a).2 = Except.error e := by
  simp [updateTask, hfind, hv]

/-- C2: for every `update_task` call requesting status `in_progress` or
`completed` on an existing task, the call succeeds only if every id in
`effective_blocked_by = blocked_by ∪ add_blocked_by` refers to a task that is
absent from disk or has status `completed`; when some blocker is unsatisfied
the call raises, and — provided the dependency validations pass and the
transition is not backward — the raised error is the unsatisfied-blocker
one. -/
theorem claim_C2 (d : Disk) (taskId : String) (a : UpdateArgs) (s : String)
    (t0 : TaskFile) (hs : a.status = some s)
    (hio : s = "in_progress" ∨ s = "completed")
    (hfind : findTask d taskId = some t0) :
    ((∃ r, (updateTask d taskId a).2 = Except.ok r) → blockersSatisfied d t0 a)
    ∧ (¬ blockersSatisfied d t0 a →
        ∃ e, (updateTask d taskId a).2 = Except.error e)
    ∧ (∀ co : Nat, ¬ blockersSatisfied d t0 a →
        checkDepIds d taskId a.add_blocks .selfBlock .refNotFound = Except.ok () →
        checkDepIds d taskId a.add_blocked_by .selfBlockedBy .refNotFound
          = Except.ok () →
        cycleChecks d taskId a = Except.ok () →
        statusOrder t0.status.str = some co →
        (∀ no, statusOrder s = some no → ¬ no < co) →
        ∃ b st', (updateTask d taskId a).2
          = Except.error (UpdateError.unsatisfiedBlocker b st')) := by
  refine ⟨?_, ?_, ?_⟩
  · rintro ⟨r, hr⟩
    cases hv : validatePhase d taskId t0 a with
    | error e =>
      rw [updateTask_snd_of_validate_err hfind hv] at hr
      exact absurd hr (by simp)
    | ok u =>
      cases u
      exact statusChecks_ok_satisfied hs hio (validatePhase_ok_parts hv).2.2.2
  · intro hnot
    cases hv : validatePhase d taskId t0 a with
    | error e => exact ⟨e, updateTask_snd_of_validate_err hfind hv⟩
    | ok u =>
      cases u
      obtain ⟨e, he⟩ := statusChecks_err_of_unsatisfied hs hio hnot
      have := (validatePhase_ok_parts hv).2.2.2
      rw [he] at this
      exact absurd this (by simp)
  · intro co hnot h1 h2 h3 hco hfwd
    obtain ⟨b, st', hsc⟩ := statusChecks_unsat_kind hs hio hco hfwd hnot
    have hv : validatePhase d taskId t0 a
        = Except.error (UpdateError.unsatisfiedBlocker b st') := by
      rw [validatePhase_eq_statusChecks h1 h2 h3, hsc]
    exact ⟨b, st', updateTask_snd_of_validate_err hfind hv⟩

/-- Witness for C2: starting a task whose sole blocker is still pending
fails with the unsatisfied-blocker error; after the blocker completes the
same call succeeds. -/
theorem claim_C2_witness :
    findTask [exT1, { exT2 with blocked_by := ["1"] }] "2"
      = some { exT2 with blocked_by := ["1"] }
    ∧ ¬ blockersSatisfied [exT1, { exT2 with blocked_by := ["1"] }]
        { exT2 with blocked_by := ["1"] } { status := some "in_progress" }
    ∧ (∃ e, (updateTask [exT1, { exT2 with blocked_by := ["1"] }] "2"
        { status := some "in_progress" }).2 = Except.error e) := by
  refine ⟨by rfl, by decide, ?_⟩
  exact (claim_C2 [exT1, { exT2 with blocked_by := ["1"] }] "2"
    { status := some "in_progress" } "in_progress"
    { exT2 with blocked_by := ["1"] } rfl (Or.inl rfl) (by rfl)).2.1 (by decide)

/-! ## Structural lemmas about the store primitives -/

theorem findTask_cons (u : TaskFile) (rest : Disk) (x : String) :
    findTask (u :: rest) x = if u.id = x then some u else findTask rest x := by
  unfold findTask
  rw [List.find?_cons]
  by_cases h : u.id = x
  · have hb : (u.id == x) = true := by simpa using h
    simp [hb, h]
  · have hb : (u.id == x) = false := by simpa using h
    simp [hb, h]

theorem findTask_id {d : Disk} {x : String} {t : TaskFile}
    (h : findTask d x = some t) : t.id = x := by
  have := List.find?_some h
  simpa using this

theorem findTask_mem {d : Disk} {x : String} {t : TaskFile}
    (h : findTask d x = some t) : t ∈ d :=
  List.mem_of_find?_eq_some h

theorem findTask_of_mem {d : Disk} {t : TaskFile} (hwf : DiskWF d)
    (ht : t ∈ d) : findTask d t.id = some t := by
  induction d with
  | nil => cases ht
  | cons u rest ih =>
    rcases List.mem_cons.mp ht with rfl | hrest
    · rw [findTask_cons, if_pos rfl]
    · unfold DiskWF at hwf
      rw [List.map_cons, List.nodup_cons] at hwf
      have hne : u.id ≠ t.id := by
        intro he
        exact hwf.1 (he ▸ List.mem_map_of_mem TaskFile.id hrest)
      rw [findTask_cons, if_neg hne]
      exact ih hwf.2 hrest

theorem findTask_isSome_iff {d : Disk} {x : String} :
    (findTask d x).isSome = true ↔ ∃ t ∈ d, t.id = x := by
  constructor
  · intro h
    obtain ⟨t, ht⟩ := Option.isSome_iff_exists.mp h
    exact ⟨t, findTask_mem ht, findTask_id ht⟩
  · rintro ⟨t, htm, rfl⟩
    induction d with
    | nil => cases htm
    | cons u rest ih =>
      rw [findTask_cons]
      by_cases hc : u.id = t.id
      · rw [if_pos hc]; rfl
      · rw [if_neg hc]
        rcases List.mem_cons.mp htm with rfl | hrest
        · exact absurd rfl hc
        · exact ih hrest

theorem findTask_writeTask_self (d : Disk) (t : TaskFile) :
    findTask (writeTask d t) t.id = some t := by
  unfold writeTask
  by_cases h : (findTask d t.id).isSome = true
  · rw [if_pos h]
    obtain ⟨u0, hmem, hid⟩ := findTask_isSome_iff.mp h
    clear h
    induction d with
    | nil => cases hmem
    | cons u rest ih =>
      rw [List.map_cons]
      by_cases hc : u.id = t.id
      · rw [if_pos (by simpa using hc), findTask_cons, if_pos rfl]
      · rw [if_neg (by simpa using hc), findTask_cons, if_neg hc]
        rcases List.mem_cons.mp hmem with rfl | hrest
        · exact absurd hid hc
        · exact ih hrest
  · rw [if_neg h]
    have hnone : findTask d t.id = none := by
      cases hf : findTask d t.id
      · rfl
      · exact absurd (by simp [hf]) h
    unfold findTask at hnone ⊢
    rw [List.find?_append, hnone]
    simp [List.find?]

theorem findTask_writeTask_other (d : Disk) (t : TaskFile) (x : String)
    (h : x ≠ t.id) : findTask (writeTask d t) x = findTask d x := by
  unfold writeTask
  by_cases hs : (findTask d t.id).isSome = true
  · rw [if_pos hs]
    clear hs
    induction d with
    | nil => rfl
    | cons u rest ih =>
      rw [List.map_cons]
      by_cases hc : u.id = t.id
      · rw [if_pos (by simpa using hc), findTask_cons, findTask_cons,
          if_neg (fun he => h he.symm), if_neg (by rw [hc]; exact fun he => h he.symm)]
        exact ih
      · rw [if_neg (by simpa using hc), findTask_cons, findTask_cons]
        by_cases hux : u.id = x
        · rw [if_pos hux, if_pos hux]
        · rw [if_neg hux, if_neg hux]
          exact ih
  · rw [if_neg hs]
    unfold findTask
    rw [List.find?_append]
    cases hf : List.find? (fun u => u.id == x) d
    · simp [List.find?, show ¬ (t.id == x) = true by simpa using fun he => h he.symm]
    · simp

theorem findTask_removeTask_self (d : Disk) (i : String) :
    findTask (removeTask d i) i = none := by
  unfold removeTask findTask
  rw [List.find?_eq_none]
  intro t ht
  have := (List.mem_filter.mp ht).2
  simpa using this

theorem findTask_removeTask_other (d : Disk) (i x : String) (h : x ≠ i) :
    findTask (removeTask d i) x = findTask d x := by
  unfold removeTask
  induction d with
  | nil => rfl
  | cons u rest ih =>
    rw [List.filter_cons]
    by_cases hc : u.id = i
    · rw [if_neg (by simpa using hc), findTask_cons,
        if_neg (by rw [hc]; exact fun he => h he.symm)]
      exact ih
    · rw [if_pos (by simpa using hc), findTask_cons, findTask_cons]
      by_cases hux : u.id = x
      · rw [if_pos hux, if_pos hux]
      · rw [if_neg hux, if_neg hux]
        exact ih

theorem writeTask_wf {d : Disk} (t : TaskFile) (hwf : DiskWF d) :
    DiskWF (writeTask d t) := by
  unfold writeTask
  by_cases hs : (findTask d t.id).isSome = true
  · rw [if_pos hs]
    unfold DiskWF at hwf ⊢
    have hmapeq : List.map TaskFile.id
        (List.map (fun u => if u.id == t.id then t else u) d)
        = List.map TaskFile.id d := by
      rw [List.map_map]
      apply List.map_congr_left
      intro u _
      by_cases hc : u.id = t.id
      · simp only [Function.comp_apply]
        rw [if_pos (by simpa using hc), hc]
      · simp only [Function.comp_apply]
        rw [if_neg (by simpa using hc)]
    rw [hmapeq]
    exact hwf
  · rw [if_neg hs]
    unfold DiskWF at hwf ⊢
    rw [List.map_append, List.nodup_append]
    refine ⟨hwf, by simp, ?_⟩
    intro y hy
    simp only [List.map_cons, List.map_nil, List.mem_singleton]
    intro he
    apply hs
    obtain ⟨u, hu, huid⟩ := List.mem_map.mp hy
    rw [findTask_isSome_iff]
    exact ⟨u, hu, by rw [huid, he]⟩

theorem removeTask_wf {d : Disk} (i : String) (hwf : DiskWF d) :
    DiskWF (removeTask d i) := by
  unfold DiskWF at hwf ⊢
  unfold removeTask
  exact List.Nodup.sublist ((List.filter_sublist d).map TaskFile.id) hwf

/-! ## DepField and addUnique lemmas -/

theorem depSet_id (f : DepField) (t : TaskFile) (l : List String) :
    (f.set t l).id = t.id := by cases f <;> rfl

theorem depSet_status (f : DepField) (t : TaskFile) (l : List String) :
    (f.set t l).status = t.status := by cases f <;> rfl

theorem depSet_owner (f : DepField) (t : TaskFile) (l : List String) :
    (f.set t l).owner = t.owner := by cases f <;> rfl

theorem depGet_set (f : DepField) (t : TaskFile) (l : List String) :
    f.get (f.set t l) = l := by cases f <;> rfl

theorem depSet_set (f : DepField) (t : TaskFile) (l1 l2 : List String) :
    f.set (f.set t l1) l2 = f.set t l2 := by cases f <;> rfl

theorem depSet_get_self (f : DepField) (t : TaskFile) :
    f.set t (f.get t) = t := by cases f <;> rfl

theorem mem_addUnique {l : List String} {a b : String} :
    b ∈ addUnique l a ↔ b ∈ l ∨ b = a := by
  unfold addUnique
  by_cases h : a ∈ l
  · simp only [if_pos h]
    constructor
    · exact Or.inl
    · rintro (hb | rfl)
      · exact hb
      · exact h
  · simp only [if_neg h]
    simp

theorem addUnique_idem (l : List String) (a : String) :
    addUnique (addUnique l a) a = addUnique l a := by
  by_cases h : a ∈ l
  · simp [addUnique, h]
  · simp [addUnique, h]

theorem mem_foldl_addUnique {xs : List String} {l : List String} {b : String} :
    b ∈ List.foldl addUnique l xs ↔ b ∈ l ∨ b ∈ xs := by
  induction xs generalizing l with
  | nil => simp
  | cons x xs ih =>
    rw [List.foldl_cons, ih, mem_addUnique]
    constructor
    · rintro ((h | rfl) | h)
      · exact Or.inl h
      · exact Or.inr (List.mem_cons_self _ _)
      · exact Or.inr (List.mem_cons_of_mem x h)
    · rintro (h | h)
      · exact Or.inl (Or.inl h)
      · rcases List.mem_cons.mp h with rfl | h2
        · exact Or.inl (Or.inr rfl)
        · exact Or.inr h2

/-! ## Pending-writes dictionary lemmas -/

theorem pwLookup_nil (i : String) : pwLookup [] i = none := rfl

theorem pwLookup_cons (k : String) (v : TaskFile) (rest : PW) (j : String) :
    pwLookup ((k, v) :: rest) j = if j = k then some v else pwLookup rest j := by
  by_cases h : j = k
  · have hb : (j == k) = true := by simpa using h
    simp [pwLookup, List.lookup, hb, h]
  · have hb : (j == k) = false := by simpa using h
    simp [pwLookup, List.lookup, hb, h]

theorem pwLookup_map_replace (pw : PW) (i : String) (t : TaskFile) (j : String) :
    pwLookup (List.map (fun e => if e.1 == i then (i, t) else e) pw) j
      = if j = i then Option.map (fun _ => t) (pwLookup pw i)
        else pwLookup pw j := by
  induction pw with
  | nil =>
    by_cases hj : j = i <;> simp [hj, pwLookup_nil]
  | cons e rest ih =>
    obtain ⟨k, v⟩ := e
    rw [List.map_cons]
    by_cases hk : k = i
    · subst hk
      rw [show (if ((k, v) : String × TaskFile).1 == k then (k, t)
          else (k, v)) = (k, t) by simp]
      by_cases hj : j = k
      · subst hj
        rw [pwLookup_cons, if_pos rfl, if_pos rfl, pwLookup_cons, if_pos rfl]
        rfl
      · rw [pwLookup_cons, if_neg hj, if_neg hj, pwLookup_cons, if_neg hj, ih,
          if_neg hj]
    · rw [show (if ((k, v) : String × TaskFile).1 == i then (i, t)
        else (k, v)) = (k, v) by simp [hk]]
      by_cases hj : j = k
      · subst hj
        rw [pwLookup_cons, if_pos rfl, if_neg hk, pwLookup_cons, if_pos rfl]
      · rw [pwLookup_cons, if_neg hj, ih]
        by_cases hji : j = i
        · rw [if_pos hji, if_pos hji, pwLookup_cons,
            if_neg (by rw [← hji]; exact hj)]
        · rw [if_neg hji, if_neg hji, pwLookup_cons]
          rw [if_neg hj]

theorem pwLookup_append_single (pw : PW) (i : String) (t : TaskFile)
    (j : String) (hnone : pwLookup pw i = none) :
    pwLookup (pw ++ [(i, t)]) j = if j = i then some t else pwLookup pw j := by
  induction pw with
  | nil =>
    rw [List.nil_append, pwLookup_cons]
  | cons e rest ih =>
    obtain ⟨k, v⟩ := e
    rw [pwLookup_cons] at hnone
    by_cases hik : i = k
    · rw [if_pos hik] at hnone
      exact absurd hnone (by simp)
    · rw [if_neg hik] at hnone
      rw [List.cons_append, pwLookup_cons, pwLookup_cons]
      by_cases hj : j = k
      · rw [if_pos hj, if_pos hj,
          if_neg (by rw [hj]; exact fun he => hik he.symm)]
      · rw [if_neg hj, if_neg hj]
        exact ih hnone

theorem pwLookup_pwInsert (pw : PW) (i : String) (t : TaskFile) (j : String) :
    pwLookup (pwInsert pw i t) j = if j = i then some t else pwLookup pw j := by
  unfold pwInsert
  by_cases hs : (List.lookup i pw).isSome = true
  · rw [if_pos hs]
    rw [pwLookup_map_replace]
    by_cases hj : j = i
    · rw [if_pos hj, if_pos hj]
      obtain ⟨v, hv⟩ := Option.isSome_iff_exists.mp hs
      show Option.map (fun _ => t) (List.lookup i pw) = some t
      rw [hv]
      rfl
    · rw [if_neg hj, if_neg hj]
  · rw [if_neg hs]
    apply pwLookup_append_single
    show List.lookup i pw = none
    cases hl : List.lookup i pw
    · rfl
    · exact absurd (by simp [hl]) hs

/-! ## linkDependency characterization -/

/-- The task record read for id `x` during phase 3: the pending-writes cache
first, then disk (`defaultTask` is unreachable after validation). -/
def diskD (d : Disk) (x : String) : TaskFile :=
  (findTask d x).getD (defaultTask x)

/-- `linkBase d pw x`: the record `_link_dependency` starts from for `x`. -/
def linkBase (d : Disk) (pw : PW) (x : String) : TaskFile :=
  (pwLookup pw x).getD (diskD d x)

/-- The inverse-side update of `_link_dependency`. -/
def invUpd (inv : DepField) (taskId : String) (o : TaskFile) : TaskFile :=
  inv.set o (addUnique (inv.get o) taskId)

theorem invUpd_idem (inv : DepField) (taskId : String) (o : TaskFile) :
    invUpd inv taskId (invUpd inv taskId o) = invUpd inv taskId o := by
  unfold invUpd
  rw [depGet_set, depSet_set, addUnique_idem]

theorem invUpd_id (inv : DepField) (taskId : String) (o : TaskFile) :
    (invUpd inv taskId o).id = o.id := depSet_id _ _ _

theorem invUpd_status (inv : DepField) (taskId : String) (o : TaskFile) :
    (invUpd inv taskId o).status = o.status := depSet_status _ _ _

theorem linkDependency_nil (d : Disk) (taskId : String) (fwd inv : DepField)
    (task : TaskFile) (pw : PW) :
    linkDependency d taskId [] fwd inv task pw = (task, pw) := rfl

theorem linkDependency_cons (d : Disk) (taskId dep : String)
    (rest : List String) (fwd inv : DepField) (task : TaskFile) (pw : PW) :
    linkDependency d taskId (dep :: rest) fwd inv task pw
      = linkDependency d taskId rest fwd inv
          (fwd.set task (addUnique (fwd.get task) dep))
          (pwInsert pw dep (invUpd inv taskId (linkBase d pw dep))) := by
  unfold linkDependency invUpd linkBase diskD
  rw [List.foldl_cons]

theorem linkDependency_fst (d : Disk) (taskId : String) (depIds : List String)
    (fwd inv : DepField) (task : TaskFile) (pw : PW) :
    (linkDependency d taskId depIds fwd inv task pw).1
      = fwd.set task (List.foldl addUnique (fwd.get task) depIds) := by
  induction depIds generalizing task pw with
  | nil =>
    rw [linkDependency_nil]
    exact (depSet_get_self fwd task).symm
  | cons dep rest ih =>
    rw [linkDependency_cons, ih, List.foldl_cons, depSet_set, depGet_set]

theorem linkDependency_pw (d : Disk) (taskId : String) (depIds : List String)
    (fwd inv : DepField) (task : TaskFile) (pw : PW) (x : String) :
    pwLookup (linkDependency d taskId depIds fwd inv task pw).2 x
      = if x ∈ depIds then some (invUpd inv taskId (linkBase d pw x))
        else pwLookup pw x := by
  induction depIds generalizing task pw with
  | nil =>
    rw [linkDependency_nil, if_neg (by simp)]
  | cons dep rest ih =>
    rw [linkDependency_cons, ih]
    by_cases hx : x ∈ rest
    · rw [if_pos hx, if_pos (List.mem_cons_of_mem dep hx)]
      unfold linkBase
      rw [pwLookup_pwInsert]
      by_cases hxd : x = dep
      · subst hxd
        rw [if_pos rfl]
        show some (invUpd inv taskId (invUpd inv taskId
          ((pwLookup pw x).getD (diskD d x)))) = _
        rw [invUpd_idem]
      · rw [if_neg hxd]
    · rw [if_neg hx]
      rw [pwLookup_pwInsert]
      by_cases hxd : x = dep
      · subst hxd
        rw [if_pos rfl, if_pos (List.mem_cons_self _ _)]
      · rw [if_neg hxd, if_neg (by
          intro hc
          rcases List.mem_cons.mp hc with h | h
          · exact hxd h
          · exact hx h)]

/-! ## Pending-writes well-formedness -/

/-- Invariant of `pending_writes` during phase 3: keys are distinct and never
the updated task itself, every cached record's id is its key, and every key
is an existing task file. -/
def PWGood (d : Disk) (taskId : String) (pw : PW) : Prop :=
  (List.map Prod.fst pw).Nodup
  ∧ (∀ e ∈ pw, e.2.id = e.1)
  ∧ (∀ e ∈ pw, e.1 ≠ taskId ∧ (findTask d e.1).isSome = true)

theorem lookup_isSome_iff_key (pw : PW) (i : String) :
    (List.lookup i pw).isSome = true ↔ i ∈ List.map Prod.fst pw := by
  induction pw with
  | nil => simp [List.lookup]
  | cons e rest ih =>
    obtain ⟨k, v⟩ := e
    by_cases h : i = k
    · subst h
      simp [List.lookup]
    · have hb : (i == k) = false := by simpa using h
      simp only [List.lookup, hb, List.map_cons, List.mem_cons]
      rw [ih]
      constructor
      · exact Or.inr
      · rintro (rfl | hm)
        · exact absurd rfl h
        · exact hm

theorem pwGood_nil (d : Disk) (taskId : String) : PWGood d taskId [] := by
  refine ⟨by simp, by simp, by simp⟩

theorem pwGood_insert {d : Disk} {taskId : String} {pw : PW}
    (hg : PWGood d taskId pw) {i : String} {t : TaskFile} (hid : t.id = i)
    (hi : i ≠ taskId) (hex : (findTask d i).isSome = true) :
    PWGood d taskId (pwInsert pw i t) := by
  obtain ⟨hnd, hids, hfacts⟩ := hg
  unfold pwInsert
  by_cases hs : (List.lookup i pw).isSome = true
  · rw [if_pos hs]
    refine ⟨?_, ?_, ?_⟩
    · have : List.map Prod.fst
          (List.map (fun e => if e.1 == i then (i, t) else e) pw)
          = List.map Prod.fst pw := by
        rw [List.map_map]
        apply List.map_congr_left
        intro e _
        by_cases hc : e.1 = i
        · simp only [Function.comp_apply]
          rw [if_pos (by simpa using hc), hc]
        · simp only [Function.comp_apply]
          rw [if_neg (by simpa using hc)]
      rw [this]
      exact hnd
    · intro e he
      obtain ⟨e0, he0, heq⟩ := List.mem_map.mp he
      by_cases hc : e0.1 = i
      · rw [if_pos (by simpa using hc)] at heq
        rw [← heq]
        exact hid
      · rw [if_neg (by simpa using hc)] at heq
        rw [← heq]
        exact hids e0 he0
    · intro e he
      obtain ⟨e0, he0, heq⟩ := List.mem_map.mp he
      by_cases hc : e0.1 = i
      · rw [if_pos (by simpa using hc)] at heq
        rw [← heq]
        exact ⟨hi, hex⟩
      · rw [if_neg (by simpa using hc)] at heq
        rw [← heq]
        exact hfacts e0 he0
  · rw [if_neg hs]
    refine ⟨?_, ?_, ?_⟩
    · rw [List.map_append, List.nodup_append]
      refine ⟨hnd, by simp, ?_⟩
      intro y hy
      simp only [List.map_cons, List.map_nil, List.mem_singleton]
      intro he
      apply hs
      rw [lookup_isSome_iff_key]
      exact he ▸ hy
    · intro e he
      rcases List.mem_append.mp he with h | h
      · exact hids e h
      · rw [List.mem_singleton.mp h]
        exact hid
    · intro e he
      rcases List.mem_append.mp he with h | h
      · exact hfacts e h
      · rw [List.mem_singleton.mp h]
        exact ⟨hi, hex⟩

theorem pwLookup_mem {pw : PW} {x : String} {t : TaskFile}
    (h : pwLookup pw x = some t) : (x, t) ∈ pw := by
  induction pw with
  | nil => cases h
  | cons e rest ih =>
    obtain ⟨k, v⟩ := e
    rw [pwLookup_cons] at h
    by_cases hx : x = k
    · rw [if_pos hx] at h
      obtain rfl : v = t := by cases h; rfl
      rw [hx]
      exact List.mem_cons_self _ _
    · rw [if_neg hx] at h
      exact List.mem_cons_of_mem _ (ih h)

theorem linkBase_id {d : Disk} {taskId : String} {pw : PW}
    (hg : PWGood d taskId pw) (x : String) : (linkBase d pw x).id = x := by
  unfold linkBase
  cases hl : pwLookup pw x with
  | some t =>
    exact hg.2.1 (x, t) (pwLookup_mem hl)
  | none =>
    unfold diskD
    cases hf : findTask d x with
    | some t => exact findTask_id hf
    | none => rfl

theorem linkDependency_pwGood {d : Disk} {taskId : String}
    {depIds : List String} {fwd inv : DepField} {task : TaskFile} {pw : PW}
    (hg : PWGood d taskId pw)
    (hdeps : ∀ b ∈ depIds, b ≠ taskId ∧ (findTask d b).isSome = true) :
    PWGood d taskId (linkDependency d taskId depIds fwd inv task pw).2 := by
  induction depIds generalizing task pw with
  | nil => rw [linkDependency_nil]; exact hg
  | cons dep rest ih =>
    rw [linkDependency_cons]
    apply ih
    · apply pwGood_insert hg
      · rw [invUpd_id]
        exact linkBase_id hg dep
      · exact (hdeps dep (List.mem_cons_self _ _)).1
      · exact (hdeps dep (List.mem_cons_self _ _)).2
    · intro b hb
      exact hdeps b (List.mem_cons_of_mem dep hb)

/-! ## Flushing the pending writes -/

theorem applyPendingWrites_cons (d : Disk) (e : String × TaskFile) (rest : PW) :
    applyPendingWrites d (e :: rest)
      = applyPendingWrites (writeTask d e.2) rest := rfl

theorem findTask_applyPW (d : Disk) (pw : PW) (x : String)
    (hkeys : (List.map Prod.fst pw).Nodup)
    (hid : ∀ e ∈ pw, e.2.id = e.1) :
    findTask (applyPendingWrites d pw) x
      = match pwLookup pw x with
        | some t => some t
        | none => findTask d x := by
  induction pw generalizing d with
  | nil => rfl
  | cons e rest ih =>
    obtain ⟨i, t⟩ := e
    have hti : t.id = i := hid (i, t) (List.mem_cons_self _ _)
    rw [applyPendingWrites_cons]
    rw [List.map_cons, List.nodup_cons] at hkeys
    rw [ih (writeTask d t) hkeys.2 (fun e he => hid e (List.mem_cons_of_mem _ he))]
    rw [pwLookup_cons]
    by_cases hx : x = i
    · subst hx
      have hrest : pwLookup rest x = none := by
        cases hl : pwLookup rest x
        · rfl
        · exfalso
          apply hkeys.1
          rw [← lookup_isSome_iff_key]
          simp [pwLookup] at hl
          simp [hl]
      rw [hrest, if_pos rfl]
      show findTask (writeTask d t) x = some t
      rw [← hti]
      exact findTask_writeTask_self d t
    · rw [if_neg hx]
      cases hl : pwLookup rest x
      · exact findTask_writeTask_other d t x (hti ▸ hx)
      · rfl

theorem applyPW_wf {d : Disk} (pw : PW) (hwf : DiskWF d) :
    DiskWF (applyPendingWrites d pw) := by
  induction pw generalizing d with
  | nil => exact hwf
  | cons e rest ih =>
    rw [applyPendingWrites_cons]
    exact ih (writeTask_wf e.2 hwf)

/-! ## removeTaskReferences characterization -/

/-- The per-sibling field erasure of `_remove_task_references`. -/
def eraseF (taskId : String) (fields : List DepField) (o : TaskFile) : TaskFile :=
  List.foldl (fun o f => f.set o ((f.get o).erase taskId)) o fields

/-- The `changed` flag of `_remove_task_references`. -/
def rChanged (taskId : String) (fields : List DepField) (o : TaskFile) : Bool :=
  List.any fields (fun f => List.contains (f.get o) taskId)

/-- One iteration of `_remove_task_references` over a sibling file. -/
def rStep (taskId : String) (fields : List DepField) (pw : PW) (t : TaskFile) :
    PW :=
  if (pyInt t.id).isNone then pw
  else if t.id = taskId then pw
  else
    let other := (pwLookup pw t.id).getD t
    if rChanged taskId fields other then
      pwInsert pw t.id (eraseF taskId fields other)
    else pw

theorem removeTaskReferences_nil (taskId : String) (fields : List DepField)
    (pw : PW) : removeTaskReferences taskId [] fields pw = pw := rfl

theorem removeTaskReferences_cons (taskId : String) (t : TaskFile)
    (rest : Disk) (fields : List DepField) (pw : PW) :
    removeTaskReferences taskId (t :: rest) fields pw
      = removeTaskReferences taskId rest fields (rStep taskId fields pw t) := by
  unfold removeTaskReferences rStep rChanged eraseF
  rw [List.foldl_cons]

theorem eraseF_id (taskId : String) (fields : List DepField) (o : TaskFile) :
    (eraseF taskId fields o).id = o.id := by
  unfold eraseF
  induction fields generalizing o with
  | nil => rfl
  | cons f fs ih =>
    rw [List.foldl_cons, ih, depSet_id]

theorem eraseF_status (taskId : String) (fields : List DepField) (o : TaskFile) :
    (eraseF taskId fields o).status = o.status := by
  unfold eraseF
  induction fields generalizing o with
  | nil => rfl
  | cons f fs ih =>
    rw [List.foldl_cons, ih, depSet_status]

theorem eraseF_owner (taskId : String) (fields : List DepField) (o : TaskFile) :
    (eraseF taskId fields o).owner = o.owner := by
  unfold eraseF
  induction fields generalizing o with
  | nil => rfl
  | cons f fs ih =>
    rw [List.foldl_cons, ih, depSet_owner]

/-- The per-key effect of the `_remove_task_references` pass, over a sublist
`l` of the team directory whose ids are distinct. -/
theorem removeTaskReferences_pw {d : Disk} (taskId : String)
    (fields : List DepField) :
    ∀ (l : List TaskFile) (pw : PW),
      (∀ t ∈ l, t ∈ d) → (List.map TaskFile.id l).Nodup → DiskWF d →
      ∀ x, pwLookup (removeTaskReferences taskId l fields pw) x
        = if (∃ t ∈ l, t.id = x) ∧ (pyInt x).isSome = true ∧ x ≠ taskId
            ∧ rChanged taskId fields (linkBase d pw x) = true
          then some (eraseF taskId fields (linkBase d pw x))
          else pwLookup pw x := by
  intro l
  induction l with
  | nil =>
    intro pw _ _ _ x
    rw [removeTaskReferences_nil, if_neg (by simp)]
  | cons t rest ih =>
    intro pw hsub hnd hwf x
    rw [removeTaskReferences_cons]
    rw [List.map_cons, List.nodup_cons] at hnd
    have htd : t ∈ d := hsub t (List.mem_cons_self _ _)
    have htfind : findTask d t.id = some t := findTask_of_mem hwf htd
    have hbase_t : linkBase d pw t.id = (pwLookup pw t.id).getD t := by
      unfold linkBase diskD
      rw [htfind]
      rfl
    have hih := ih (rStep taskId fields pw t)
      (fun u hu => hsub u (List.mem_cons_of_mem t hu)) hnd.2 hwf x
    by_cases hx : x = t.id
    · have hnotrest : ¬ ∃ u ∈ rest, u.id = x := by
        rintro ⟨u, hu, hux⟩
        exact hnd.1 ((hux.trans hx) ▸ List.mem_map_of_mem TaskFile.id hu)
      have hbase_x : linkBase d pw x = (pwLookup pw x).getD t := by
        rw [hx]; exact hbase_t
      rw [hih, if_neg (by rintro ⟨hex, _⟩; exact hnotrest hex)]
      unfold rStep
      rw [← hx, ← hbase_x]
      by_cases h2 : (pyInt x).isNone
      · rw [if_pos h2]
        rw [if_neg (by
          rintro ⟨_, hsome, _⟩
          rw [Option.isNone_iff_eq_none] at h2
          rw [h2] at hsome
          cases hsome)]
      · rw [if_neg h2]
        by_cases h3 : x = taskId
        · rw [if_pos h3]
          rw [if_neg (by rintro ⟨_, _, hne, _⟩; exact hne h3)]
        · rw [if_neg h3]
          by_cases h4 : rChanged taskId fields (linkBase d pw x) = true
          · have hsome : (pyInt x).isSome = true := by
              cases hpi : pyInt x
              · exact absurd (by rw [hpi]; rfl) h2
              · rfl
            rw [if_pos h4, pwLookup_pwInsert, if_pos rfl,
              if_pos ⟨⟨t, List.mem_cons_self _ _, hx.symm⟩, hsome, h3, h4⟩]
          · rw [if_neg h4,
              if_neg (by rintro ⟨_, _, _, hch⟩; exact h4 hch)]
    · have hbase_same : linkBase d (rStep taskId fields pw t) x
          = linkBase d pw x := by
        unfold linkBase
        unfold rStep
        by_cases h2 : (pyInt t.id).isNone
        · rw [if_pos h2]
        · rw [if_neg h2]
          by_cases h3 : t.id = taskId
          · rw [if_pos h3]
          · rw [if_neg h3]
            by_cases h4 : rChanged taskId fields
                ((pwLookup pw t.id).getD t) = true
            · rw [if_pos h4]
              show ((pwLookup (pwInsert pw t.id _) x).getD _) = _
              rw [pwLookup_pwInsert, if_neg hx]
            · rw [if_neg h4]
      have hpw_same : pwLookup (rStep taskId fields pw t) x = pwLookup pw x := by
        unfold rStep
        by_cases h2 : (pyInt t.id).isNone
        · rw [if_pos h2]
        · rw [if_neg h2]
          by_cases h3 : t.id = taskId
          · rw [if_pos h3]
          · rw [if_neg h3]
            by_cases h4 : rChanged taskId fields
                ((pwLookup pw t.id).getD t) = true
            · rw [if_pos h4]
              show pwLookup (pwInsert pw t.id _) x = _
              rw [pwLookup_pwInsert, if_neg hx]
            · rw [if_neg h4]
      rw [hih, hbase_same, hpw_same]
      have hexiff : ((∃ u ∈ rest, u.id = x) ↔ (∃ u ∈ t :: rest, u.id = x)) := by
        constructor
        · rintro ⟨u, hu, hux⟩
          exact ⟨u, List.mem_cons_of_mem t hu, hux⟩
        · rintro ⟨u, hu, hux⟩
          rcases List.mem_cons.mp hu with rfl | hur
          · exact absurd hux.symm hx
          · exact ⟨u, hur, hux⟩
      by_cases hc : (∃ u ∈ rest, u.id = x) ∧ (pyInt x).isSome = true
          ∧ x ≠ taskId ∧ rChanged taskId fields (linkBase d pw x) = true
      · rw [if_pos hc, if_pos ⟨hexiff.mp hc.1, hc.2⟩]
      · rw [if_neg hc, if_neg (by
          rintro ⟨hex, hrest⟩
          exact hc ⟨hexiff.mpr hex, hrest⟩)]

theorem rStep_pwGood {d : Disk} {taskId : String} {fields : List DepField}
    {pw : PW} {t : TaskFile} (hg : PWGood d taskId pw) (htd : t ∈ d)
    (hwf : DiskWF d) : PWGood d taskId (rStep taskId fields pw t) := by
  unfold rStep
  by_cases h2 : (pyInt t.id).isNone
  · rw [if_pos h2]; exact hg
  · rw [if_neg h2]
    by_cases h3 : t.id = taskId
    · rw [if_pos h3]; exact hg
    · rw [if_neg h3]
      by_cases h4 : rChanged taskId fields ((pwLookup pw t.id).getD t) = true
      · rw [if_pos h4]
        apply pwGood_insert hg
        · rw [eraseF_id]
          cases hl : pwLookup pw t.id with
          | some u =>
            show u.id = t.id
            exact hg.2.1 (t.id, u) (pwLookup_mem hl)
          | none => rfl
        · exact h3
        · rw [findTask_of_mem hwf htd]; rfl
      · rw [if_neg h4]; exact hg

theorem removeTaskReferences_pwGood {d : Disk} {taskId : String}
    {fields : List DepField} :
    ∀ (l : List TaskFile) (pw : PW), (∀ t ∈ l, t ∈ d) → DiskWF d →
    PWGood d taskId pw →
    PWGood d taskId (removeTaskReferences taskId l fields pw) := by
  intro l
  induction l with
  | nil => intro pw _ _ hg; exact hg
  | cons t rest ih =>
    intro pw hsub hwf hg
    rw [removeTaskReferences_cons]
    exact ih _ (fun u hu => hsub u (List.mem_cons_of_mem t hu)) hwf
      (rStep_pwGood hg (hsub t (List.mem_cons_self _ _)) hwf)

/-! ## Full characterization of a successful update -/

theorem checkDepIds_ok_facts {d : Disk} {taskId : String} {ids : List String}
    {mkSelf mkMissing : String → UpdateError}
    (h : checkDepIds d taskId ids mkSelf mkMissing = Except.ok ()) :
    ∀ b ∈ ids, b ≠ taskId ∧ (findTask d b).isSome = true := by
  intro b hb
  have hx := (forM_ok_iff _ ids).mp h b hb
  by_cases h1 : b = taskId
  · rw [if_pos h1] at hx
    exact absurd hx (by simp)
  · rw [if_neg h1] at hx
    by_cases h2 : taskExists d b = true
    · exact ⟨h1, h2⟩
    · rw [if_neg h2] at hx
      exact absurd hx (by simp)

/-- The linking passes of phase 3 with both `if`s on non-emptiness removed
(linking over the empty list is the identity). -/
def mutateLinked (d : Disk) (taskId : String) (task0 : TaskFile)
    (a : UpdateArgs) : TaskFile × PW :=
  linkDependency d taskId a.add_blocked_by .blockedBy .blocks
    (linkDependency d taskId a.add_blocks .blocks .blockedBy
      (applyScalars task0 a) []).1
    (linkDependency d taskId a.add_blocks .blocks .blockedBy
      (applyScalars task0 a) []).2

theorem mutatePhase_eq (d : Disk) (taskId : String) (task0 : TaskFile)
    (a : UpdateArgs) :
    mutatePhase d taskId task0 a
      = match a.status with
        | none => (applyMetadata (mutateLinked d taskId task0 a).1 a,
                   (mutateLinked d taskId task0 a).2)
        | some s =>
          if s ≠ "deleted" then
            if s = "completed" then
              ({ applyMetadata (mutateLinked d taskId task0 a).1 a with
                  status := (parseStatus s).getD
                    (applyMetadata (mutateLinked d taskId task0 a).1 a).status },
                removeTaskReferences taskId d [.blockedBy]
                  (mutateLinked d taskId task0 a).2)
            else
              ({ applyMetadata (mutateLinked d taskId task0 a).1 a with
                  status := (parseStatus s).getD
                    (applyMetadata (mutateLinked d taskId task0 a).1 a).status },
                (mutateLinked d taskId task0 a).2)
          else
            ({ applyMetadata (mutateLinked d taskId task0 a).1 a with
                status := TaskStatus.deleted },
              removeTaskReferences taskId d [.blockedBy, .blocks]
                (mutateLinked d taskId task0 a).2) := by
  by_cases hb : a.add_blocks = []
  · by_cases hc : a.add_blocked_by = []
    · simp [mutatePhase, mutateLinked, hb, hc, linkDependency_nil]
    · simp [mutatePhase, mutateLinked, hb, hc, linkDependency_nil]
  · by_cases hc : a.add_blocked_by = []
    · simp [mutatePhase, mutateLinked, hb, hc, linkDependency_nil]
    · simp [mutatePhase, mutateLinked, hb, hc, linkDependency_nil]

/-- The updated record after the scalar updates and both linking passes. -/
def selfLinked (task0 : TaskFile) (a : UpdateArgs) : TaskFile :=
  { applyScalars task0 a with
      blocks := List.foldl addUnique (applyScalars task0 a).blocks a.add_blocks,
      blocked_by := List.foldl addUnique (applyScalars task0 a).blocked_by
        a.add_blocked_by }

/-- The record returned by a successful `update_task`. -/
def selfExpected (task0 : TaskFile) (a : UpdateArgs) : TaskFile :=
  match a.status with
  | none => applyMetadata (selfLinked task0 a) a
  | some s =>
    if s = "deleted" then
      { applyMetadata (selfLinked task0 a) a with status := TaskStatus.deleted }
    else
      { applyMetadata (selfLinked task0 a) a with
          status := (parseStatus s).getD
            (applyMetadata (selfLinked task0 a) a).status }

theorem mutateLinked_fst (d : Disk) (taskId : String) (task0 : TaskFile)
    (a : UpdateArgs) :
    (mutateLinked d taskId task0 a).1 = selfLinked task0 a := by
  unfold mutateLinked selfLinked
  rw [linkDependency_fst, linkDependency_fst]
  rfl

theorem mutatePhase_fst (d : Disk) (taskId : String) (task0 : TaskFile)
    (a : UpdateArgs) :
    (mutatePhase d taskId task0 a).1 = selfExpected task0 a := by
  rw [mutatePhase_eq]
  unfold selfExpected
  cases hs : a.status with
  | none =>
    dsimp only
    exact congrArg (fun u => applyMetadata u a) (mutateLinked_fst d taskId task0 a)
  | some s =>
    dsimp only
    by_cases hdel : s = "deleted"
    · rw [if_neg (not_not_intro hdel), if_pos hdel, mutateLinked_fst]
    · rw [if_pos hdel, if_neg hdel]
      by_cases hcomp : s = "completed"
      · rw [if_pos hcomp, mutateLinked_fst]
      · rw [if_neg hcomp, mutateLinked_fst]

/-- Effect of the two linking passes on a sibling record. -/
def linkedOther (taskId : String) (a : UpdateArgs) (t : TaskFile) : TaskFile :=
  let t1 := if t.id ∈ a.add_blocks then invUpd .blockedBy taskId t else t
  if t.id ∈ a.add_blocked_by then invUpd .blocks taskId t1 else t1

/-- Effect of a successful update on a sibling record (one with a different
id): linking, then the completed/deleted reference cleanup. -/
def otherFinal (taskId : String) (a : UpdateArgs) (t : TaskFile) : TaskFile :=
  match a.status with
  | none => linkedOther taskId a t
  | some s =>
    if s = "deleted" then
      if (pyInt t.id).isSome then
        { linkedOther taskId a t with
            blocked_by := (linkedOther taskId a t).blocked_by.erase taskId,
            blocks := (linkedOther taskId a t).blocks.erase taskId }
      else linkedOther taskId a t
    else if s = "completed" then
      if (pyInt t.id).isSome then
        { linkedOther taskId a t with
            blocked_by := (linkedOther taskId a t).blocked_by.erase taskId }
      else linkedOther taskId a t
    else linkedOther taskId a t

theorem linkedOther_not_mem {taskId : String} {a : UpdateArgs} {t : TaskFile}
    (hb : t.id ∉ a.add_blocks) (hc : t.id ∉ a.add_blocked_by) :
    linkedOther taskId a t = t := by
  unfold linkedOther
  rw [if_neg hb, if_neg hc]

theorem mutateLinked_pw {d : Disk} (taskId : String) (task0 : TaskFile)
    (a : UpdateArgs) {x : String} {t : TaskFile}
    (hfx : findTask d x = some t) :
    pwLookup (mutateLinked d taskId task0 a).2 x
      = if x ∈ a.add_blocks ∨ x ∈ a.add_blocked_by
        then some (linkedOther taskId a t) else none := by
  have hidx : t.id = x := findTask_id hfx
  have hdisk : diskD d x = t := by
    unfold diskD
    rw [hfx]
    rfl
  unfold mutateLinked
  rw [linkDependency_pw]
  unfold linkBase
  rw [linkDependency_pw]
  unfold linkedOther
  rw [hidx]
  by_cases hb : x ∈ a.add_blocks
  · rw [if_pos hb, if_pos hb]
    by_cases hc : x ∈ a.add_blocked_by
    · rw [if_pos hc, if_pos hc, if_pos (Or.inl hb)]
      show some (invUpd .blocks taskId (invUpd .blockedBy taskId
        ((pwLookup [] x).getD (diskD d x)))) = _
      rw [show (pwLookup ([] : PW) x).getD (diskD d x) = diskD d x from rfl,
        hdisk]
    · rw [if_neg hc, if_neg hc, if_pos (Or.inl hb)]
      show some (invUpd .blockedBy taskId
        ((pwLookup [] x).getD (diskD d x))) = _
      rw [show (pwLookup ([] : PW) x).getD (diskD d x) = diskD d x from rfl,
        hdisk]
  · rw [if_neg hb, if_neg hb]
    by_cases hc : x ∈ a.add_blocked_by
    · rw [if_pos hc, if_pos hc, if_pos (Or.inr hc)]
      show some (invUpd .blocks taskId
        ((pwLookup [] x).getD (diskD d x))) = _
      rw [show (pwLookup ([] : PW) x).getD (diskD d x) = diskD d x from rfl,
        hdisk]
    · rw [if_neg hc, if_neg hc,
        if_neg (by rintro (h | h); exact hb h; exact hc h)]
      rfl

theorem mutateLinked_pwGood {d : Disk} {taskId : String} {task0 : TaskFile}
    {a : UpdateArgs}
    (hdeps_b : ∀ b ∈ a.add_blocks, b ≠ taskId ∧ (findTask d b).isSome = true)
    (hdeps_c : ∀ b ∈ a.add_blocked_by,
      b ≠ taskId ∧ (findTask d b).isSome = true) :
    PWGood d taskId (mutateLinked d taskId task0 a).2 :=
  linkDependency_pwGood
    (linkDependency_pwGood (pwGood_nil d taskId) hdeps_b) hdeps_c

theorem contains_iff_mem (l : List String) (a : String) :
    List.contains l a = true ↔ a ∈ l := by
  induction l with
  | nil => simp [List.contains, List.elem]
  | cons x xs ih =>
    show List.elem a (x :: xs) = true ↔ a ∈ x :: xs
    by_cases h : a = x
    · subst h
      simp [List.elem_cons]
    · have hb : (a == x) = false := by simpa using h
      rw [List.elem_cons, hb]
      show List.elem a xs = true ↔ a ∈ x :: xs
      rw [List.mem_cons]
      constructor
      · intro hm
        exact Or.inr (ih.mp hm)
      · rintro (rfl | hm)
        · exact absurd rfl h
        · exact ih.mpr hm

theorem rChanged_single (taskId : String) (u : TaskFile) :
    rChanged taskId [.blockedBy] u = true ↔ taskId ∈ u.blocked_by := by
  unfold rChanged
  rw [List.any_cons, List.any_nil, Bool.or_false]
  exact contains_iff_mem u.blocked_by taskId

theorem rChanged_pair (taskId : String) (u : TaskFile) :
    rChanged taskId [.blockedBy, .blocks] u = true
      ↔ taskId ∈ u.blocked_by ∨ taskId ∈ u.blocks := by
  unfold rChanged
  rw [List.any_cons, List.any_cons, List.any_nil, Bool.or_false,
    Bool.or_eq_true]
  exact or_congr (contains_iff_mem u.blocked_by taskId)
    (contains_iff_mem u.blocks taskId)

theorem eraseF_single_eq (taskId : String) (u : TaskFile) :
    eraseF taskId [.blockedBy] u
      = { u with blocked_by := u.blocked_by.erase taskId } := rfl

theorem eraseF_pair_eq (taskId : String) (u : TaskFile) :
    eraseF taskId [.blockedBy, .blocks] u
      = { u with blocked_by := u.blocked_by.erase taskId,
                 blocks := u.blocks.erase taskId } := rfl

theorem mutatePhase_pw {d : Disk} {taskId : String} (task0 : TaskFile)
    (a : UpdateArgs) (hwf : DiskWF d) {x : String} {t : TaskFile}
    (hfx : findTask d x = some t) (hx : x ≠ taskId) :
    (pwLookup (mutatePhase d taskId task0 a).2 x).getD t
      = otherFinal taskId a t := by
  have hidx : t.id = x := findTask_id hfx
  have hmemd : t ∈ d := findTask_mem hfx
  have hdisk : diskD d x = t := by
    unfold diskD
    rw [hfx]
    rfl
  have hpw2 := mutateLinked_pw taskId task0 a hfx
  have hres2 : (pwLookup (mutateLinked d taskId task0 a).2 x).getD t
      = linkedOther taskId a t := by
    rw [hpw2]
    by_cases hmem : x ∈ a.add_blocks ∨ x ∈ a.add_blocked_by
    · rw [if_pos hmem]
      rfl
    · rw [if_neg hmem]
      show t = linkedOther taskId a t
      exact (linkedOther_not_mem (fun h => hmem (Or.inl (hidx ▸ h)))
        (fun h => hmem (Or.inr (hidx ▸ h)))).symm
  have hLB : linkBase d (mutateLinked d taskId task0 a).2 x
      = linkedOther taskId a t := by
    unfold linkBase
    rw [hdisk]
    exact hres2
  rw [mutatePhase_eq]
  unfold otherFinal
  rw [hidx]
  cases hs : a.status with
  | none =>
    dsimp only
    exact hres2
  | some s =>
    dsimp only
    by_cases hdel : s = "deleted"
    · rw [if_neg (not_not_intro hdel), if_pos hdel]
      dsimp only
      rw [removeTaskReferences_pw taskId [.blockedBy, .blocks] d _
        (fun u hu => hu) hwf hwf x, hLB]
      by_cases hpi : (pyInt x).isSome = true
      · rw [if_pos hpi]
        by_cases hch : rChanged taskId [.blockedBy, .blocks]
            (linkedOther taskId a t) = true
        · rw [if_pos ⟨⟨t, hmemd, hidx⟩, hpi, hx, hch⟩]
          exact eraseF_pair_eq taskId (linkedOther taskId a t)
        · rw [if_neg (by rintro ⟨_, _, _, h4⟩; exact hch h4)]
          have h5 : ¬ (taskId ∈ (linkedOther taskId a t).blocked_by
              ∨ taskId ∈ (linkedOther taskId a t).blocks) :=
            fun hm => hch ((rChanged_pair _ _).mpr hm)
          rw [hres2, List.erase_of_not_mem (fun h => h5 (Or.inl h)),
            List.erase_of_not_mem (fun h => h5 (Or.inr h))]
      · rw [if_neg hpi, if_neg (by rintro ⟨_, h2, _⟩; exact hpi h2)]
        exact hres2
    · rw [if_pos hdel, if_neg hdel]
      by_cases hcomp : s = "completed"
      · rw [if_pos hcomp, if_pos hcomp]
        dsimp only
        rw [removeTaskReferences_pw taskId [.blockedBy] d _
          (fun u hu => hu) hwf hwf x, hLB]
        by_cases hpi : (pyInt x).isSome = true
        · rw [if_pos hpi]
          by_cases hch : rChanged taskId [.blockedBy]
              (linkedOther taskId a t) = true
          · rw [if_pos ⟨⟨t, hmemd, hidx⟩, hpi, hx, hch⟩]
            exact eraseF_single_eq taskId (linkedOther taskId a t)
          · rw [if_neg (by rintro ⟨_, _, _, h4⟩; exact hch h4)]
            have h5 : taskId ∉ (linkedOther taskId a t).blocked_by :=
              fun hm => hch ((rChanged_single _ _).mpr hm)
            rw [hres2, List.erase_of_not_mem h5]
        · rw [if_neg hpi, if_neg (by rintro ⟨_, h2, _⟩; exact hpi h2)]
          exact hres2
      · rw [if_neg hcomp, if_neg hcomp]
        dsimp only
        exact hres2

theorem mutatePhase_pwGood {d : Disk} {taskId : String} {task0 : TaskFile}
    {a : UpdateArgs} (hwf : DiskWF d)
    (hdeps_b : ∀ b ∈ a.add_blocks, b ≠ taskId ∧ (findTask d b).isSome = true)
    (hdeps_c : ∀ b ∈ a.add_blocked_by,
      b ≠ taskId ∧ (findTask d b).isSome = true) :
    PWGood d taskId (mutatePhase d taskId task0 a).2 := by
  rw [mutatePhase_eq]
  cases a.status with
  | none =>
    dsimp only
    exact mutateLinked_pwGood hdeps_b hdeps_c
  | some s =>
    dsimp only
    by_cases hdel : s = "deleted"
    · rw [if_neg (not_not_intro hdel)]
      dsimp only
      exact removeTaskReferences_pwGood d _ (fun u hu => hu) hwf
        (mutateLinked_pwGood hdeps_b hdeps_c)
    · rw [if_pos hdel]
      by_cases hcomp : s = "completed"
      · rw [if_pos hcomp]
        dsimp only
        exact removeTaskReferences_pwGood d _ (fun u hu => hu) hwf
          (mutateLinked_pwGood hdeps_b hdeps_c)
      · rw [if_neg hcomp]
        dsimp only
        exact mutateLinked_pwGood hdeps_b hdeps_c

theorem pwGood_lookup_self {d : Disk} {taskId : String} {pw : PW}
    (hg : PWGood d taskId pw) : pwLookup pw taskId = none := by
  cases hl : pwLookup pw taskId with
  | none => rfl
  | some u => exact absurd rfl (hg.2.2 (taskId, u) (pwLookup_mem hl)).1

theorem pwGood_lookup_none {d : Disk} {taskId : String} {pw : PW}
    (hg : PWGood d taskId pw) {x : String} (hfx : findTask d x = none) :
    pwLookup pw x = none := by
  cases hl : pwLookup pw x with
  | none => rfl
  | some u =>
    have h2 := (hg.2.2 (x, u) (pwLookup_mem hl)).2
    rw [hfx] at h2
    cases h2

theorem applyScalars_id (task : TaskFile) (a : UpdateArgs) :
    (applyScalars task a).id = task.id := by
  unfold applyScalars
  cases a.subject <;> cases a.description <;> cases a.active_form <;>
    cases a.owner <;> rfl

theorem applyMetadata_id (task : TaskFile) (a : UpdateArgs) :
    (applyMetadata task a).id = task.id := by
  unfold applyMetadata
  cases a.metadata <;> rfl

theorem selfExpected_id (task0 : TaskFile) (a : UpdateArgs) :
    (selfExpected task0 a).id = task0.id := by
  unfold selfExpected
  have hbase : (applyMetadata (selfLinked task0 a) a).id = task0.id := by
    rw [applyMetadata_id]
    exact applyScalars_id task0 a
  cases a.status with
  | none => exact hbase
  | some s =>
    dsimp only
    by_cases hdel : s = "deleted"
    · rw [if_pos hdel]
      exact hbase
    · rw [if_neg hdel]
      exact hbase

/-- Full characterization of a successful `update_task` call: the returned
record, the stored record (or its removal, for deletion), the effect on every
other task file, and preservation of well-formedness. -/
theorem updateTask_ok_spec {d : Disk} {taskId : String} {a : UpdateArgs}
    {task0 : TaskFile} {d' : Disk} {r : TaskFile} (hwf : DiskWF d)
    (hfind : findTask d taskId = some task0)
    (hup : updateTask d taskId a = (d', Except.ok r)) :
    r = selfExpected task0 a
    ∧ DiskWF d'
    ∧ (a.status = some "deleted" → findTask d' taskId = none)
    ∧ (a.status ≠ some "deleted" →
        findTask d' taskId = some (selfExpected task0 a))
    ∧ ∀ x, x ≠ taskId →
        findTask d' x = Option.map (otherFinal taskId a) (findTask d x) := by
  simp only [updateTask, hfind] at hup
  cases hv : validatePhase d taskId task0 a with
  | error e =>
    rw [hv] at hup
    exact absurd hup (by simp)
  | ok u =>
    cases u
    rw [hv] at hup
    obtain ⟨h1, h2, _h3, _h4⟩ := validatePhase_ok_parts hv
    have hdeps_b := checkDepIds_ok_facts h1
    have hdeps_c := checkDepIds_ok_facts h2
    have hgood : PWGood d taskId (mutatePhase d taskId task0 a).2 :=
      mutatePhase_pwGood hwf hdeps_b hdeps_c
    have htid : task0.id = taskId := findTask_id hfind
    by_cases hdel : a.status = some "deleted"
    · rw [if_pos hdel] at hup
      have hd' : removeTask
          (applyPendingWrites d (mutatePhase d taskId task0 a).2) taskId
          = d' := congrArg Prod.fst hup
      have hsnd : Except.ok (mutatePhase d taskId task0 a).1
          = (Except.ok r : Except UpdateError TaskFile) :=
        congrArg Prod.snd hup
      have hr : (mutatePhase d taskId task0 a).1 = r := by
        injection hsnd
      have hrE : r = selfExpected task0 a :=
        hr.symm.trans (mutatePhase_fst d taskId task0 a)
      refine ⟨hrE, ?_, ?_, fun hnd => absurd hdel hnd, ?_⟩
      · rw [← hd']
        exact removeTask_wf taskId (applyPW_wf _ hwf)
      · intro _
        rw [← hd']
        exact findTask_removeTask_self _ taskId
      · intro x hxne
        rw [← hd', findTask_removeTask_other _ taskId x hxne,
          findTask_applyPW _ _ x hgood.1 hgood.2.1]
        cases hfx : findTask d x with
        | some t =>
          have hchar := mutatePhase_pw task0 a hwf hfx hxne
          cases hl : pwLookup (mutatePhase d taskId task0 a).2 x with
          | some v =>
            rw [hl] at hchar
            rw [show (some v).getD t = v from rfl] at hchar
            exact congrArg some hchar
          | none =>
            rw [hl] at hchar
            rw [show (none : Option TaskFile).getD t = t from rfl] at hchar
            exact congrArg some hchar
        | none =>
          rw [pwGood_lookup_none hgood hfx]
          rfl
    · rw [if_neg hdel] at hup
      have hd' : applyPendingWrites (writeTask d (mutatePhase d taskId task0 a).1)
          (mutatePhase d taskId task0 a).2 = d' := congrArg Prod.fst hup
      have hsnd : Except.ok (mutatePhase d taskId task0 a).1
          = (Except.ok r : Except UpdateError TaskFile) :=
        congrArg Prod.snd hup
      have hr : (mutatePhase d taskId task0 a).1 = r := by
        injection hsnd
      have hrE : r = selfExpected task0 a :=
        hr.symm.trans (mutatePhase_fst d taskId task0 a)
      rw [mutatePhase_fst d taskId task0 a] at hd'
      have hEid : (selfExpected task0 a).id = taskId := by
        rw [selfExpected_id]
        exact htid
      refine ⟨hrE, ?_, fun hc => absurd hc hdel, ?_, ?_⟩
      · rw [← hd']
        exact applyPW_wf _ (writeTask_wf _ hwf)
      · intro _
        rw [← hd', findTask_applyPW _ _ taskId hgood.1 hgood.2.1,
          pwGood_lookup_self hgood]
        show findTask (writeTask d (selfExpected task0 a)) taskId
          = some (selfExpected task0 a)
        rw [← hEid]
        exact findTask_writeTask_self d (selfExpected task0 a)
      · intro x hxne
        rw [← hd', findTask_applyPW _ _ x hgood.1 hgood.2.1]
        have hbase : findTask (writeTask d (selfExpected task0 a)) x
            = findTask d x :=
          findTask_writeTask_other d (selfExpected task0 a) x
            (by rw [hEid]; exact hxne)
        cases hfx : findTask d x with
        | some t =>
          have hchar := mutatePhase_pw task0 a hwf hfx hxne
          cases hl : pwLookup (mutatePhase d taskId task0 a).2 x with
          | some v =>
            rw [hl] at hchar
            rw [show (some v).getD t = v from rfl] at hchar
            exact congrArg some hchar
          | none =>
            rw [hl] at hchar
            rw [show (none : Option TaskFile).getD t = t from rfl] at hchar
            show findTask (writeTask d (selfExpected task0 a)) x
              = some (otherFinal taskId a t)
            rw [hbase, hfx]
            exact congrArg some hchar
        | none =>
          rw [pwGood_lookup_none hgood hfx]
          show findTask (writeTask d (selfExpected task0 a)) x
            = Option.map (otherFinal taskId a) none
          rw [hbase, hfx]
          rfl

/-! ## Status bookkeeping for claim C4 -/

theorem updateTask_ok_validate {d : Disk} {taskId : String} {a : UpdateArgs}
    {task0 : TaskFile} {d' : Disk} {r : TaskFile}
    (hfind : findTask d taskId = some task0)
    (hup : updateTask d taskId a = (d', Except.ok r)) :
    validatePhase d taskId task0 a = Except.ok () := by
  simp only [updateTask, hfind] at hup
  cases hv : validatePhase d taskId task0 a with
  | error e =>
    rw [hv] at hup
    exact absurd hup (by simp)
  | ok u =>
    cases u
    rfl

theorem statusChecks_ok_not_backward {d : Disk} {task : TaskFile}
    {a : UpdateArgs} {s : String} (hs : a.status = some s)
    (hdel : s ≠ "deleted") (hok : statusChecks d task a = Except.ok ()) :
    ∃ co no, statusOrder task.status.str = some co ∧ statusOrder s = some no
      ∧ ¬ no < co := by
  simp only [statusChecks, hs] at hok
  rw [if_neg hdel] at hok
  cases hco : statusOrder task.status.str with
  | none => simp [hco] at hok
  | some co =>
    simp only [hco] at hok
    cases hno : statusOrder s with
    | none => simp [hno] at hok
    | some no =>
      simp only [hno] at hok
      by_cases hlt : no < co
      · rw [if_pos hlt] at hok
        exact absurd hok (by simp)
      · exact ⟨co, no, rfl, rfl, hlt⟩

theorem parseStatus_of_ordered {s : String} {no : Nat}
    (h : statusOrder s = some no) :
    ∃ st, parseStatus s = some st ∧ statusOrder st.str = some no := by
  by_cases h1 : s = "pending"
  · subst h1
    have hno : no = 0 := by simpa [statusOrder] using h.symm
    subst hno
    exact ⟨.pending, rfl, rfl⟩
  · by_cases h2 : s = "in_progress"
    · subst h2
      have hno : no = 1 := by simpa [statusOrder] using h.symm
      subst hno
      exact ⟨.in_progress, rfl, rfl⟩
    · by_cases h3 : s = "completed"
      · subst h3
        have hno : no = 2 := by simpa [statusOrder] using h.symm
        subst hno
        exact ⟨.completed, rfl, rfl⟩
      · exact absurd h (by simp [statusOrder, h1, h2, h3])

theorem applyScalars_status (task : TaskFile) (a : UpdateArgs) :
    (applyScalars task a).status = task.status := by
  unfold applyScalars
  cases a.subject <;> cases a.description <;> cases a.active_form <;>
    cases a.owner <;> rfl

theorem applyMetadata_status (task : TaskFile) (a : UpdateArgs) :
    (applyMetadata task a).status = task.status := by
  unfold applyMetadata
  cases a.metadata <;> rfl

theorem selfExpected_status_base (task0 : TaskFile) (a : UpdateArgs) :
    (applyMetadata (selfLinked task0 a) a).status = task0.status := by
  rw [applyMetadata_status]
  exact applyScalars_status task0 a

theorem selfExpected_status (task0 : TaskFile) (a : UpdateArgs) :
    (selfExpected task0 a).status
      = match a.status with
        | none => task0.status
        | some s =>
          if s = "deleted" then TaskStatus.deleted
          else (parseStatus s).getD task0.status := by
  unfold selfExpected
  cases a.status with
  | none => exact selfExpected_status_base task0 a
  | some s =>
    dsimp only
    by_cases hdel : s = "deleted"
    · rw [if_pos hdel, if_pos hdel]
    · rw [if_neg hdel, if_neg hdel]
      show (parseStatus s).getD (applyMetadata (selfLinked task0 a) a).status
        = (parseStatus s).getD task0.status
      rw [selfExpected_status_base]

theorem linkedOther_status (taskId : String) (a : UpdateArgs) (t : TaskFile) :
    (linkedOther taskId a t).status = t.status := by
  unfold linkedOther
  by_cases h1 : t.id ∈ a.add_blocks
  · rw [if_pos h1]
    by_cases h2 : t.id ∈ a.add_blocked_by
    · rw [if_pos h2, invUpd_status, invUpd_status]
    · rw [if_neg h2, invUpd_status]
  · rw [if_neg h1]
    by_cases h2 : t.id ∈ a.add_blocked_by
    · rw [if_pos h2, invUpd_status]
    · rw [if_neg h2]

theorem otherFinal_status (taskId : String) (a : UpdateArgs) (t : TaskFile) :
    (otherFinal taskId a t).status = t.status := by
  unfold otherFinal
  cases a.status with
  | none => exact linkedOther_status taskId a t
  | some s =>
    dsimp only
    by_cases hdel : s = "deleted"
    · rw [if_pos hdel]
      by_cases hpi : (pyInt t.id).isSome = true
      · rw [if_pos hpi]
        exact linkedOther_status taskId a t
      · rw [if_neg hpi]
        exact linkedOther_status taskId a t
    · rw [if_neg hdel]
      by_cases hcomp : s = "completed"
      · rw [if_pos hcomp]
        by_cases hpi : (pyInt t.id).isSome = true
        · rw [if_pos hpi]
          exact linkedOther_status taskId a t
        · rw [if_neg hpi]
          exact linkedOther_status taskId a t
      · rw [if_neg hcomp]
        exact linkedOther_status taskId a t

theorem findTask_map {f : TaskFile → TaskFile} (hf : ∀ u, (f u).id = u.id)
    (d : Disk) (x : String) :
    findTask (List.map f d) x = Option.map f (findTask d x) := by
  induction d with
  | nil => rfl
  | cons u rest ih =>
    rw [List.map_cons, findTask_cons, findTask_cons, hf u]
    by_cases h : u.id = x
    · rw [if_pos h, if_pos h]
      rfl
    · rw [if_neg h, if_neg h]
      exact ih

/-- The per-record effect of `reset_owner_tasks`. -/
def resetRecord (agentName : String) (t : TaskFile) : TaskFile :=
  if (pyInt t.id).isSome ∧ t.owner = some agentName then
    { t with
      status := if t.status ≠ .completed then .pending else t.status,
      owner := none }
  else t

theorem resetRecord_id (agentName : String) (t : TaskFile) :
    (resetRecord agentName t).id = t.id := by
  unfold resetRecord
  by_cases h : (pyInt t.id).isSome = true ∧ t.owner = some agentName
  · rw [if_pos h]
  · rw [if_neg h]

theorem resetOwnerTasks_find (d : Disk) (agentName x : String) :
    findTask (resetOwnerTasks d agentName) x
      = Option.map (resetRecord agentName) (findTask d x) := by
  show findTask (List.map (fun t =>
    if (pyInt t.id).isSome ∧ t.owner = some agentName then
      { t with
        status := if t.status ≠ .completed then .pending else t.status,
        owner := none }
    else t) d) x = _
  exact findTask_map (resetRecord_id agentName) d x

/-- C4 counterexample: `reset_owner_tasks` moves an `in_progress` task owned
by the agent back to `pending` — a backward transition in `_STATUS_ORDER`,
refuting "no operation takes a task from `in_progress` or `completed` to an
earlier status". -/
theorem claim_C4_counterexample :
    resetOwnerTasks
        [{ exT1 with status := TaskStatus.in_progress, owner := some "bob" }]
        "bob"
      = [{ exT1 with status := TaskStatus.pending, owner := none }]
    ∧ statusOrder TaskStatus.in_progress.str = some 1
    ∧ statusOrder TaskStatus.pending.str = some 0
    ∧ ((0 : Nat) < 1) := by
  refine ⟨by decide, rfl, rfl, by decide⟩

/-- Status of the record inside a `create_task` result (defaulting to
`pending` on error), used to read off the created record's status. -/
def exceptStatus (e : Except String TaskFile) : TaskStatus :=
  match e with
  | .ok u => u.status
  | .error _ => .pending

/-- C4 (amended): no transition moves a task's status backward except the
documented owner reset.  On a well-formed store, (1) a successful
`update_task` never lowers any task's `_STATUS_ORDER` rank — the updated
task's rank can only grow (backward transitions are rejected) and every other
task keeps its status; (2) `create_task` leaves existing records unchanged
(given a fresh allocated id) and (3) the task it creates is `pending`;
(4) `reset_owner_tasks` rewrites exactly the integer-stem tasks owned by the
agent, resetting non-`completed` ones to `pending` — a backward move — and
(5) it never changes the status of a `completed` task. -/
theorem claim_C4 (d : Disk) (hwf : DiskWF d) :
    (∀ taskId a d' r, updateTask d taskId a = (d', Except.ok r) →
      ∀ x t t' co no, findTask d x = some t → findTask d' x = some t' →
        statusOrder t.status.str = some co →
        statusOrder t'.status.str = some no → co ≤ no)
    ∧ (∀ (flag : Bool) subject de af md x t,
        findTask d (nextTaskId d) = none → findTask d x = some t →
        findTask (createTask flag d subject de af md).1 x = some t)
    ∧ (∀ (flag : Bool) subject de af md d' r,
        createTask flag d subject de af md = (d', Except.ok r) →
        r.status = .pending)
    ∧ (∀ agentName x t, findTask d x = some t →
        findTask (resetOwnerTasks d agentName) x
          = some (resetRecord agentName t))
    ∧ (∀ agentName x t t', findTask d x = some t →
        findTask (resetOwnerTasks d agentName) x = some t' →
        t.status = .completed → t'.status = .completed) := by
  refine ⟨?_, ?_, ?_, ?_, ?_⟩
  · intro taskId a d' r hup x t t' co no hfx hfx' hco hno
    cases hfind : findTask d taskId with
    | none => simp [updateTask, hfind] at hup
    | some task0 =>
      obtain ⟨hrE, hwf', hdelcase, hndcase, hothers⟩ :=
        updateTask_ok_spec hwf hfind hup
      by_cases hx : x = taskId
      · subst hx
        have ht0 : t = task0 := by
          have h2 := hfx.symm.trans hfind
          injection h2
        subst ht0
        by_cases hdel : a.status = some "deleted"
        · rw [hdelcase hdel] at hfx'
          cases hfx'
        · rw [hndcase hdel] at hfx'
          have ht' : selfExpected t a = t' := by injection hfx'
          rw [← ht', selfExpected_status] at hno
          cases hs : a.status with
          | none =>
            rw [hs] at hno
            dsimp only at hno
            have h2 := hco.symm.trans hno
            have : co = no := by injection h2
            omega
          | some s =>
            rw [hs] at hno
            dsimp only at hno
            have hsd : s ≠ "deleted" := fun hc => hdel (by rw [hs, hc])
            rw [if_neg hsd] at hno
            have hv := updateTask_ok_validate hfind hup
            obtain ⟨co2, no2, hco2, hno2, hnb⟩ :=
              statusChecks_ok_not_backward hs hsd
                (validatePhase_ok_parts hv).2.2.2
            obtain ⟨st, hps, hsto⟩ := parseStatus_of_ordered hno2
            rw [hps] at hno
            rw [show (some st).getD t.status = st from rfl] at hno
            have he1 : co = co2 := by
              have h2 := hco.symm.trans hco2
              injection h2
            have he2 : no = no2 := by
              have h2 := hno.symm.trans hsto
              injection h2
            omega
      · rw [hothers x hx, hfx] at hfx'
        have h2 : some (otherFinal taskId a t) = some t' := hfx'
        have h3 : otherFinal taskId a t = t' := by injection h2
        rw [← h3, otherFinal_status] at hno
        have h4 := hco.symm.trans hno
        have : co = no := by injection h4
        omega
  · intro flag subject de af md x t hfresh hfx
    unfold createTask
    by_cases h1 : subject.data.all isPySpace = true
    · rw [if_pos h1]
      exact hfx
    · rw [if_neg h1]
      by_cases h2 : flag = true
      · rw [if_neg (by simp [h2])]
        have hne : x ≠ nextTaskId d := by
          intro hc
          rw [hc, hfresh] at hfx
          cases hfx
        show findTask (writeTask d _) x = some t
        rw [findTask_writeTask_other d _ x hne]
        exact hfx
      · rw [if_pos (by simpa using h2)]
        exact hfx
  · intro flag subject de af md d' r hc
    unfold createTask at hc
    by_cases h1 : subject.data.all isPySpace = true
    · rw [if_pos h1] at hc
      have h2 : (Except.error "Task subject must not be empty"
          : Except String TaskFile) = Except.ok r := congrArg Prod.snd hc
      cases h2
    · rw [if_neg h1] at hc
      by_cases h2 : flag = true
      · rw [if_neg (by simp [h2])] at hc
        have h5 : TaskStatus.pending = r.status :=
          congrArg exceptStatus (congrArg Prod.snd hc)
        exact h5.symm
      · rw [if_pos (by simpa using h2)] at hc
        have h2 : (Except.error "Team does not exist"
            : Except String TaskFile) = Except.ok r := congrArg Prod.snd hc
        cases h2
  · intro agentName x t hfx
    rw [resetOwnerTasks_find, hfx]
    rfl
  · intro agentName x t t' hfx hfx' hcomp
    rw [resetOwnerTasks_find, hfx] at hfx'
    have h2 : some (resetRecord agentName t) = some t' := hfx'
    have h3 : resetRecord agentName t = t' := by injection h2
    rw [← h3]
    unfold resetRecord
    by_cases hcond : (pyInt t.id).isSome = true ∧ t.owner = some agentName
    · rw [if_pos hcond]
      show (if t.status ≠ .completed then TaskStatus.pending else t.status)
        = TaskStatus.completed
      rw [if_neg (by rw [hcomp]; exact not_not_intro rfl), hcomp]
    · rw [if_neg hcond]
      exact hcomp

/-- Witness for C4 on a one-task store: resetting an unrelated owner leaves
the pending task untouched, and updating its status to `in_progress` raises
its rank from 0 to 1 (0 ≤ 1). -/
theorem claim_C4_witness :
    DiskWF [exT1]
    ∧ findTask (resetOwnerTasks [exT1] "bob") "1" = some exT1 := by
  refine ⟨by decide, ?_⟩
  have h := (claim_C4 [exT1] (by decide)).2.2.2.1 "bob" "1" exT1 (by rfl)
  rw [h]
  decide

/-! ## Claim C5: the blocks / blocked_by relations -/

/-- The biconditional invariant of the claim: `B ∈ A.blocks ⇔ A ∈
B.blocked_by` for tasks on disk. -/
def invPairs (d : Disk) : Prop :=
  ∀ A ∈ d, ∀ B ∈ d, (B.id ∈ A.blocks ↔ A.id ∈ B.blocked_by)

instance (d : Disk) : Decidable (invPairs d) := by
  unfold invPairs
  infer_instance

/-- The direction the store does maintain: every `blocked_by` edge on disk is
backed by the inverse `blocks` entry. -/
def InvBB (d : Disk) : Prop :=
  ∀ A ∈ d, ∀ B ∈ d, A.id ∈ B.blocked_by → B.id ∈ A.blocks

instance (d : Disk) : Decidable (InvBB d) := by
  unfold InvBB
  infer_instance

/-- Referential closure of `blocked_by`: every listed blocker exists. -/
def RefsClosed (d : Disk) : Prop :=
  ∀ B ∈ d, ∀ i ∈ B.blocked_by, taskExists d i = true

/-- The result record of `update_task`, `none` on error. -/
def updOk (p : Disk × Except UpdateError TaskFile) : Option TaskFile :=
  match p.2 with
  | .ok r => some r
  | .error _ => none

/-- C5 counterexample: with task 1 blocking task 2 (`1.blocks = ["2"]`,
`2.blocked_by = ["1"]`, a state where the biconditional holds), completing
task 1 erases `"1"` from task 2's `blocked_by` but leaves `"2"` in task 1's
`blocks`: after the successful call `B ∈ A.blocks` no longer implies
`A ∈ B.blocked_by`, refuting the claimed invariant (and its "in particular"
clause about completion). -/
theorem claim_C5_counterexample :
    invPairs [{ exT1 with blocks := ["2"] }, { exT2 with blocked_by := ["1"] }]
    ∧ updOk (updateTask
        [{ exT1 with blocks := ["2"] }, { exT2 with blocked_by := ["1"] }]
        "1" { status := some "completed" })
      = some { exT1 with blocks := ["2"], status := TaskStatus.completed }
    ∧ (updateTask
        [{ exT1 with blocks := ["2"] }, { exT2 with blocked_by := ["1"] }]
        "1" { status := some "completed" }).1
      = [{ exT1 with blocks := ["2"], status := TaskStatus.completed }, exT2]
    ∧ ¬ invPairs
        [{ exT1 with blocks := ["2"], status := TaskStatus.completed }, exT2] := by
  refine ⟨by decide, by decide, by decide, by decide⟩

theorem linkedOther_id (taskId : String) (a : UpdateArgs) (t : TaskFile) :
    (linkedOther taskId a t).id = t.id := by
  unfold linkedOther
  by_cases h1 : t.id ∈ a.add_blocks
  · rw [if_pos h1]
    by_cases h2 : t.id ∈ a.add_blocked_by
    · rw [if_pos h2, invUpd_id, invUpd_id]
    · rw [if_neg h2, invUpd_id]
  · rw [if_neg h1]
    by_cases h2 : t.id ∈ a.add_blocked_by
    · rw [if_pos h2, invUpd_id]
    · rw [if_neg h2]

theorem otherFinal_id (taskId : String) (a : UpdateArgs) (t : TaskFile) :
    (otherFinal taskId a t).id = t.id := by
  unfold otherFinal
  cases a.status with
  | none => exact linkedOther_id taskId a t
  | some s =>
    dsimp only
    by_cases hdel : s = "deleted"
    · rw [if_pos hdel]
      by_cases hpi : (pyInt t.id).isSome = true
      · rw [if_pos hpi]
        exact linkedOther_id taskId a t
      · rw [if_neg hpi]
        exact linkedOther_id taskId a t
    · rw [if_neg hdel]
      by_cases hcomp : s = "completed"
      · rw [if_pos hcomp]
        by_cases hpi : (pyInt t.id).isSome = true
        · rw [if_pos hpi]
          exact linkedOther_id taskId a t
        · rw [if_neg hpi]
          exact linkedOther_id taskId a t
      · rw [if_neg hcomp]
        exact linkedOther_id taskId a t

theorem linkedOther_blocked_by_cases {taskId : String} {a : UpdateArgs}
    {t : TaskFile} {x : String}
    (h : x ∈ (linkedOther taskId a t).blocked_by) :
    x ∈ t.blocked_by ∨ (x = taskId ∧ t.id ∈ a.add_blocks) := by
  unfold linkedOther at h
  by_cases h2 : t.id ∈ a.add_blocked_by
  · rw [if_pos h2] at h
    rw [show (invUpd .blocks taskId _).blocked_by
      = (if t.id ∈ a.add_blocks then invUpd .blockedBy taskId t
          else t).blocked_by from rfl] at h
    by_cases h1 : t.id ∈ a.add_blocks
    · rw [if_pos h1] at h
      rcases mem_addUnique.mp h with h3 | h3
      · exact Or.inl h3
      · exact Or.inr ⟨h3, h1⟩
    · rw [if_neg h1] at h
      exact Or.inl h
  · rw [if_neg h2] at h
    by_cases h1 : t.id ∈ a.add_blocks
    · rw [if_pos h1] at h
      rcases mem_addUnique.mp h with h3 | h3
      · exact Or.inl h3
      · exact Or.inr ⟨h3, h1⟩
    · rw [if_neg h1] at h
      exact Or.inl h

theorem linkedOther_blocks_super {taskId : String} {a : UpdateArgs}
    {t : TaskFile} {x : String} (h : x ∈ t.blocks) :
    x ∈ (linkedOther taskId a t).blocks := by
  unfold linkedOther
  by_cases h2 : t.id ∈ a.add_blocked_by
  · rw [if_pos h2]
    apply mem_addUnique.mpr
    left
    by_cases h1 : t.id ∈ a.add_blocks
    · rw [if_pos h1]
      exact h
    · rw [if_neg h1]
      exact h
  · rw [if_neg h2]
    by_cases h1 : t.id ∈ a.add_blocks
    · rw [if_pos h1]
      exact h
    · rw [if_neg h1]
      exact h

theorem linkedOther_blocks_self {taskId : String} {a : UpdateArgs}
    {t : TaskFile} (h2 : t.id ∈ a.add_blocked_by) :
    taskId ∈ (linkedOther taskId a t).blocks := by
  unfold linkedOther
  rw [if_pos h2]
  exact mem_addUnique.mpr (Or.inr rfl)

theorem otherFinal_blocked_by_sub {taskId : String} {a : UpdateArgs}
    {t : TaskFile} {x : String}
    (h : x ∈ (otherFinal taskId a t).blocked_by) :
    x ∈ (linkedOther taskId a t).blocked_by := by
  unfold otherFinal at h
  cases hs : a.status with
  | none =>
    rw [hs] at h
    exact h
  | some s =>
    rw [hs] at h
    dsimp only at h
    by_cases hdel : s = "deleted"
    · rw [if_pos hdel] at h
      by_cases hpi : (pyInt t.id).isSome = true
      · rw [if_pos hpi] at h
        exact List.mem_of_mem_erase h
      · rw [if_neg hpi] at h
        exact h
    · rw [if_neg hdel] at h
      by_cases hcomp : s = "completed"
      · rw [if_pos hcomp] at h
        by_cases hpi : (pyInt t.id).isSome = true
        · rw [if_pos hpi] at h
          exact List.mem_of_mem_erase h
        · rw [if_neg hpi] at h
          exact h
      · rw [if_neg hcomp] at h
        exact h

theorem otherFinal_blocks_super_ne {taskId : String} {a : UpdateArgs}
    {t : TaskFile} {x : String} (hx : x ≠ taskId)
    (h : x ∈ (linkedOther taskId a t).blocks) :
    x ∈ (otherFinal taskId a t).blocks := by
  unfold otherFinal
  cases hs : a.status with
  | none => exact h
  | some s =>
    dsimp only
    by_cases hdel : s = "deleted"
    · rw [if_pos hdel]
      by_cases hpi : (pyInt t.id).isSome = true
      · rw [if_pos hpi]
        exact (List.mem_erase_of_ne hx).mpr h
      · rw [if_neg hpi]
        exact h
    · rw [if_neg hdel]
      by_cases hcomp : s = "completed"
      · rw [if_pos hcomp]
        by_cases hpi : (pyInt t.id).isSome = true
        · rw [if_pos hpi]
          exact h
        · rw [if_neg hpi]
          exact h
      · rw [if_neg hcomp]
        exact h

theorem applyScalars_blocks (task : TaskFile) (a : UpdateArgs) :
    (applyScalars task a).blocks = task.blocks := by
  unfold applyScalars
  cases a.subject <;> cases a.description <;> cases a.active_form <;>
    cases a.owner <;> rfl

theorem applyScalars_blocked_by (task : TaskFile) (a : UpdateArgs) :
    (applyScalars task a).blocked_by = task.blocked_by := by
  unfold applyScalars
  cases a.subject <;> cases a.description <;> cases a.active_form <;>
    cases a.owner <;> rfl

theorem applyMetadata_blocks (task : TaskFile) (a : UpdateArgs) :
    (applyMetadata task a).blocks = task.blocks := by
  unfold applyMetadata
  cases a.metadata <;> rfl

theorem applyMetadata_blocked_by (task : TaskFile) (a : UpdateArgs) :
    (applyMetadata task a).blocked_by = task.blocked_by := by
  unfold applyMetadata
  cases a.metadata <;> rfl

theorem selfExpected_blocks (task0 : TaskFile) (a : UpdateArgs) :
    (selfExpected task0 a).blocks
      = List.foldl addUnique task0.blocks a.add_blocks := by
  have hbase : (applyMetadata (selfLinked task0 a) a).blocks
      = List.foldl addUnique task0.blocks a.add_blocks := by
    rw [applyMetadata_blocks]
    show List.foldl addUnique (applyScalars task0 a).blocks a.add_blocks = _
    rw [applyScalars_blocks]
  unfold selfExpected
  cases a.status with
  | none => exact hbase
  | some s =>
    dsimp only
    by_cases hdel : s = "deleted"
    · rw [if_pos hdel]
      exact hbase
    · rw [if_neg hdel]
      exact hbase

theorem selfExpected_blocked_by (task0 : TaskFile) (a : UpdateArgs) :
    (selfExpected task0 a).blocked_by
      = List.foldl addUnique task0.blocked_by a.add_blocked_by := by
  have hbase : (applyMetadata (selfLinked task0 a) a).blocked_by
      = List.foldl addUnique task0.blocked_by a.add_blocked_by := by
    rw [applyMetadata_blocked_by]
    show List.foldl addUnique (applyScalars task0 a).blocked_by
      a.add_blocked_by = _
    rw [applyScalars_blocked_by]
  unfold selfExpected
  cases a.status with
  | none => exact hbase
  | some s =>
    dsimp only
    by_cases hdel : s = "deleted"
    · rw [if_pos hdel]
      exact hbase
    · rw [if_neg hdel]
      exact hbase

theorem otherFinal_blocks_super_nondel {taskId : String} {a : UpdateArgs}
    {t : TaskFile} {x : String} (hnd : a.status ≠ some "deleted")
    (h : x ∈ (linkedOther taskId a t).blocks) :
    x ∈ (otherFinal taskId a t).blocks := by
  unfold otherFinal
  cases hs : a.status with
  | none => exact h
  | some s =>
    dsimp only
    have hdel : s ≠ "deleted" := fun hc => hnd (by rw [hs, hc])
    rw [if_neg hdel]
    by_cases hcomp : s = "completed"
    · rw [if_pos hcomp]
      by_cases hpi : (pyInt t.id).isSome = true
      · rw [if_pos hpi]
        exact h
      · rw [if_neg hpi]
        exact h
    · rw [if_neg hcomp]
      exact h

theorem writeTask_fresh {d : Disk} {t : TaskFile}
    (h : findTask d t.id = none) : writeTask d t = d ++ [t] := by
  unfold writeTask
  rw [h]
  rfl

theorem resetOwnerTasks_eq_map (d : Disk) (agentName : String) :
    resetOwnerTasks d agentName = List.map (resetRecord agentName) d := rfl

theorem resetRecord_blocks (agentName : String) (t : TaskFile) :
    (resetRecord agentName t).blocks = t.blocks := by
  unfold resetRecord
  by_cases h : (pyInt t.id).isSome = true ∧ t.owner = some agentName
  · rw [if_pos h]
  · rw [if_neg h]

theorem resetRecord_blocked_by (agentName : String) (t : TaskFile) :
    (resetRecord agentName t).blocked_by = t.blocked_by := by
  unfold resetRecord
  by_cases h : (pyInt t.id).isSome = true ∧ t.owner = some agentName
  · rw [if_pos h]
  · rw [if_neg h]

/-- C5 (amended): the biconditional is not an invariant — completing a task
severs the `blocked_by` side while `blocks` is deliberately preserved
(see `claim_C5_counterexample`; the behaviour is pinned by the repo test
`test_completing_task_preserves_blocks_on_self`).  What every operation does
preserve, on a well-formed store, is the direction `A ∈ B.blocked_by →
B ∈ A.blocks`: every `blocked_by` edge is backed by the inverse `blocks`
entry after any successful `update_task`, after `create_task` (given closed
references and a fresh id), and after `reset_owner_tasks`. -/
theorem claim_C5 (d : Disk) (hwf : DiskWF d) (hinv : InvBB d) :
    (∀ taskId a d' r, updateTask d taskId a = (d', Except.ok r) → InvBB d')
    ∧ (∀ (flag : Bool) subject de af md, RefsClosed d →
        findTask d (nextTaskId d) = none →
        InvBB (createTask flag d subject de af md).1)
    ∧ (∀ agentName, InvBB (resetOwnerTasks d agentName)) := by
  refine ⟨?_, ?_, ?_⟩
  · intro taskId a d' r hup
    cases hfind : findTask d taskId with
    | none => simp [updateTask, hfind] at hup
    | some task0 =>
      obtain ⟨_, hwf', hdelc, hndc, hoth⟩ := updateTask_ok_spec hwf hfind hup
      have hv := updateTask_ok_validate hfind hup
      obtain ⟨_, h2, _, _⟩ := validatePhase_ok_parts hv
      have hdeps_c := checkDepIds_ok_facts h2
      have htask0mem : task0 ∈ d := findTask_mem hfind
      have htid : task0.id = taskId := findTask_id hfind
      have hdecomp : ∀ X, X ∈ d' → X.id ≠ taskId →
          ∃ tX, findTask d tX.id = some tX ∧ tX.id = X.id
            ∧ X = otherFinal taskId a tX := by
        intro X hX hXid
        have hfX : findTask d' X.id = some X := findTask_of_mem hwf' hX
        rw [hoth X.id hXid] at hfX
        cases hfdX : findTask d X.id with
        | none =>
          rw [hfdX] at hfX
          cases hfX
        | some tX =>
          rw [hfdX] at hfX
          have hXof : some (otherFinal taskId a tX) = some X := hfX
          have hXeq : otherFinal taskId a tX = X := by injection hXof
          refine ⟨tX, ?_, findTask_id hfdX, hXeq.symm⟩
          rw [findTask_id hfdX]
          exact hfdX
      intro A hA B hB hmem
      have hfA : findTask d' A.id = some A := findTask_of_mem hwf' hA
      have hfB : findTask d' B.id = some B := findTask_of_mem hwf' hB
      by_cases hAid : A.id = taskId
      · by_cases hdel : a.status = some "deleted"
        · rw [hAid, hdelc hdel] at hfA
          cases hfA
        · have hAeq : A = selfExpected task0 a := by
            rw [hAid, hndc hdel] at hfA
            have h3 : some (selfExpected task0 a) = some A := hfA
            have h4 : selfExpected task0 a = A := by injection h3
            exact h4.symm
          by_cases hBid : B.id = taskId
          · have hBeq : B = selfExpected task0 a := by
              rw [hBid, hndc hdel] at hfB
              have h3 : some (selfExpected task0 a) = some B := hfB
              have h4 : selfExpected task0 a = B := by injection h3
              exact h4.symm
            rw [hAeq, selfExpected_blocks]
            rw [hBeq, selfExpected_blocked_by, hAid] at hmem
            rw [hBid]
            rcases mem_foldl_addUnique.mp hmem with h5 | h5
            · apply mem_foldl_addUnique.mpr
              left
              rw [← htid]
              exact hinv task0 htask0mem task0 htask0mem (by rw [htid]; exact h5)
            · exact absurd rfl (hdeps_c taskId h5).1
          · obtain ⟨tB, hfdB, hBid2, hBof⟩ := hdecomp B hB hBid
            rw [hAeq, selfExpected_blocks]
            rw [hBof, hAid] at hmem
            rcases linkedOther_blocked_by_cases (otherFinal_blocked_by_sub hmem)
              with h7 | h7
            · apply mem_foldl_addUnique.mpr
              left
              rw [← hBid2]
              exact hinv task0 htask0mem tB (findTask_mem hfdB)
                (by rw [htid]; exact h7)
            · apply mem_foldl_addUnique.mpr
              right
              rw [← hBid2]
              exact h7.2
      · obtain ⟨tA, hfdA, hAid2, hAof⟩ := hdecomp A hA hAid
        by_cases hBid : B.id = taskId
        · by_cases hdel : a.status = some "deleted"
          · rw [hBid, hdelc hdel] at hfB
            cases hfB
          · have hBeq : B = selfExpected task0 a := by
              rw [hBid, hndc hdel] at hfB
              have h3 : some (selfExpected task0 a) = some B := hfB
              have h4 : selfExpected task0 a = B := by injection h3
              exact h4.symm
            rw [hBeq, selfExpected_blocked_by] at hmem
            rw [hAof, hBid]
            rcases mem_foldl_addUnique.mp hmem with h5 | h5
            · apply otherFinal_blocks_super_nondel hdel
              apply linkedOther_blocks_super
              rw [← htid]
              exact hinv tA (findTask_mem hfdA) task0 htask0mem
                (by rw [hAid2]; exact h5)
            · apply otherFinal_blocks_super_nondel hdel
              exact linkedOther_blocks_self (by rw [hAid2]; exact h5)
        · obtain ⟨tB, hfdB, hBid2, hBof⟩ := hdecomp B hB hBid
          rw [hAof]
          rw [hBof] at hmem
          rcases linkedOther_blocked_by_cases (otherFinal_blocked_by_sub hmem)
            with h7 | h7
          · apply otherFinal_blocks_super_ne hBid
            apply linkedOther_blocks_super
            rw [← hBid2]
            exact hinv tA (findTask_mem hfdA) tB (findTask_mem hfdB)
              (by rw [hAid2]; exact h7)
          · exact absurd h7.1 hAid
  · intro flag subject de af md hrefs hfresh
    unfold createTask
    by_cases h1 : subject.data.all isPySpace = true
    · rw [if_pos h1]
      exact hinv
    · rw [if_neg h1]
      by_cases h2 : flag = true
      · rw [if_neg (by simp [h2])]
        show InvBB (writeTask d _)
        rw [writeTask_fresh hfresh]
        intro A hA B hB hmem
        rcases List.mem_append.mp hA with hAd | hAnew
        · rcases List.mem_append.mp hB with hBd | hBnew
          · exact hinv A hAd B hBd hmem
          · rw [List.mem_singleton.mp hBnew] at hmem
            exact absurd hmem (List.not_mem_nil _)
        · have hAn := List.mem_singleton.mp hAnew
          rcases List.mem_append.mp hB with hBd | hBnew
          · have h3 := hrefs B hBd A.id hmem
            rw [hAn] at h3
            have h4 : (findTask d (nextTaskId d)).isSome = true := h3
            rw [hfresh] at h4
            cases h4
          · rw [List.mem_singleton.mp hBnew] at hmem
            exact absurd hmem (List.not_mem_nil _)
      · rw [if_pos (by simpa using h2)]
        exact hinv
  · intro agentName
    rw [resetOwnerTasks_eq_map]
    intro A hA B hB hmem
    obtain ⟨a0, ha0, hAeq⟩ := List.mem_map.mp hA
    obtain ⟨b0, hb0, hBeq⟩ := List.mem_map.mp hB
    rw [← hAeq, ← hBeq, resetRecord_blocked_by, resetRecord_id] at hmem
    rw [← hAeq, ← hBeq, resetRecord_blocks, resetRecord_id]
    exact hinv a0 ha0 b0 hb0 hmem

/-- Witness for C5 on the two-task chain: the weakened invariant holds before
the completing update and still holds on the resulting store. -/
theorem claim_C5_witness :
    DiskWF [{ exT1 with blocks := ["2"] }, { exT2 with blocked_by := ["1"] }]
    ∧ InvBB [{ exT1 with blocks := ["2"] }, { exT2 with blocked_by := ["1"] }]
    ∧ InvBB [{ exT1 with blocks := ["2"], status := TaskStatus.completed },
        exT2] := by
  refine ⟨by decide, by decide, ?_⟩
  exact (claim_C5 [{ exT1 with blocks := ["2"] },
      { exT2 with blocked_by := ["1"] }] (by decide) (by decide)).1
    "1" { status := some "completed" }
    [{ exT1 with blocks := ["2"], status := TaskStatus.completed }, exT2]
    { exT1 with blocks := ["2"], status := TaskStatus.completed } (by rfl)

/-! ## Claim C3: the cycle check -/

/-- Edge `x → y` of the on-disk `blocked_by` graph: `y` blocks `x`. -/
def diskAdj (d : Disk) (x y : String) : Prop := y ∈ blockedByOnDisk d x

/-- Edge `x → y` contributed by the pending (not yet written) edges. -/
def pendAdj (p : PendingEdges) (x y : String) : Prop := y ∈ pendingOf p x

/-- Edge of the union graph the BFS walks: disk plus pending. -/
def adjU (d : Disk) (p : PendingEdges) (x y : String) : Prop :=
  diskAdj d x y ∨ pendAdj p x y

theorem mem_pendingOf {p : PendingEdges} {x y : String} :
    y ∈ pendingOf p x ↔ (x, y) ∈ p := by
  unfold pendingOf
  rw [List.mem_map]
  constructor
  · rintro ⟨e, he, rfl⟩
    have h2 := List.mem_filter.mp he
    have h3 : e.1 = x := by simpa using h2.2
    rw [← h3]
    exact h2.1
  · intro h
    exact ⟨(x, y), List.mem_filter.mpr ⟨h, by simp⟩, rfl⟩

theorem wccFuel_nil (d : Disk) (p : PendingEdges) (fromId : String)
    (fuel : Nat) (visited : List String) :
    wccFuel d p fromId fuel visited [] = some false := by
  cases fuel <;> rfl

theorem wccFuel_zero (d : Disk) (p : PendingEdges) (fromId : String)
    (visited : List String) (c : String) (rest : List String) :
    wccFuel d p fromId 0 visited (c :: rest) = none := rfl

theorem wccFuel_succ (d : Disk) (p : PendingEdges) (fromId : String)
    (fuel : Nat) (visited : List String) (c : String) (rest : List String) :
    wccFuel d p fromId (fuel + 1) visited (c :: rest)
      = if c = fromId then some true
        else if c ∈ visited then wccFuel d p fromId fuel visited rest
        else wccFuel d p fromId fuel (c :: visited)
            (rest
              ++ List.filter (fun x => ¬ x ∈ (c :: visited))
                  (blockedByOnDisk d c)
              ++ List.filter (fun x => ¬ x ∈ (c :: visited))
                  (pendingOf p c)) := rfl

theorem rtg_closed {adj : String → String → Prop} {S : List String}
    (hS : ∀ v ∈ S, ∀ y, adj v y → y ∈ S) {u w : String} (hu : u ∈ S)
    (h : Relation.ReflTransGen adj u w) : w ∈ S := by
  induction h with
  | refl => exact hu
  | tail _ h2 ih => exact hS _ ih _ h2

/-- Soundness of the BFS `False` answer: when the search exhausts its queue
without meeting `fromId`, no element of the queue (nor of the visited set)
reaches `fromId` through the union graph. -/
theorem wccFuel_false_sound (d : Disk) (p : PendingEdges) (fromId : String) :
    ∀ (fuel : Nat) (visited queue : List String),
      wccFuel d p fromId fuel visited queue = some false →
      fromId ∉ visited →
      (∀ v ∈ visited, ∀ y, adjU d p v y → y ∈ visited ∨ y ∈ queue) →
      ∀ u, (u ∈ queue ∨ u ∈ visited) →
        ¬ Relation.ReflTransGen (adjU d p) u fromId := by
  intro fuel
  induction fuel with
  | zero =>
    intro visited queue hres hnv hcl u hu hrtg
    cases queue with
    | nil =>
      have hclosed : ∀ v ∈ visited, ∀ y, adjU d p v y → y ∈ visited := by
        intro v hv y hy
        rcases hcl v hv y hy with h | h
        · exact h
        · exact absurd h (List.not_mem_nil _)
      rcases hu with hu | hu
      · exact absurd hu (List.not_mem_nil _)
      · exact hnv (rtg_closed hclosed hu hrtg)
    | cons c rest =>
      rw [wccFuel_zero] at hres
      cases hres
  | succ fuel ih =>
    intro visited queue hres hnv hcl u hu hrtg
    cases queue with
    | nil =>
      have hclosed : ∀ v ∈ visited, ∀ y, adjU d p v y → y ∈ visited := by
        intro v hv y hy
        rcases hcl v hv y hy with h | h
        · exact h
        · exact absurd h (List.not_mem_nil _)
      rcases hu with hu | hu
      · exact absurd hu (List.not_mem_nil _)
      · exact hnv (rtg_closed hclosed hu hrtg)
    | cons c rest =>
      rw [wccFuel_succ] at hres
      by_cases hcf : c = fromId
      · rw [if_pos hcf] at hres
        cases hres
      · rw [if_neg hcf] at hres
        by_cases hcv : c ∈ visited
        · rw [if_pos hcv] at hres
          have hcl2 : ∀ v ∈ visited, ∀ y, adjU d p v y →
              y ∈ visited ∨ y ∈ rest := by
            intro v hv y hy
            rcases hcl v hv y hy with h | h
            · exact Or.inl h
            · rcases List.mem_cons.mp h with rfl | h2
              · exact Or.inl hcv
              · exact Or.inr h2
          refine ih visited rest hres hnv hcl2 u ?_ hrtg
          rcases hu with hu | hu
          · rcases List.mem_cons.mp hu with rfl | h2
            · exact Or.inr hcv
            · exact Or.inl h2
          · exact Or.inr hu
        · rw [if_neg hcv] at hres
          have hnv1 : fromId ∉ c :: visited := by
            intro h
            rcases List.mem_cons.mp h with rfl | h2
            · exact hcf rfl
            · exact hnv h2
          have hcl1 : ∀ v ∈ c :: visited, ∀ y, adjU d p v y →
              y ∈ c :: visited ∨ y ∈ rest
                ++ List.filter (fun x => ¬ x ∈ (c :: visited))
                    (blockedByOnDisk d c)
                ++ List.filter (fun x => ¬ x ∈ (c :: visited))
                    (pendingOf p c) := by
            intro v hv y hy
            rcases List.mem_cons.mp hv with rfl | hv2
            · by_cases hyv : y ∈ v :: visited
              · exact Or.inl hyv
              · right
                rcases hy with h | h
                · refine List.mem_append.mpr (Or.inl ?_)
                  refine List.mem_append.mpr (Or.inr ?_)
                  exact List.mem_filter.mpr ⟨h, by simpa using hyv⟩
                · refine List.mem_append.mpr (Or.inr ?_)
                  exact List.mem_filter.mpr ⟨h, by simpa using hyv⟩
            · rcases hcl v hv2 y hy with h | h
              · exact Or.inl (List.mem_cons_of_mem c h)
              · rcases List.mem_cons.mp h with rfl | h2
                · exact Or.inl (List.mem_cons_self _ _)
                · exact Or.inr (List.mem_append.mpr (Or.inl
                    (List.mem_append.mpr (Or.inl h2))))
          refine ih _ _ hres hnv1 hcl1 u ?_ hrtg
          rcases hu with hu | hu
          · rcases List.mem_cons.mp hu with rfl | h2
            · exact Or.inr (List.mem_cons_self _ _)
            · exact Or.inl (List.mem_append.mpr (Or.inl
                (List.mem_append.mpr (Or.inl h2))))
          · exact Or.inr (List.mem_cons_of_mem c hu)

/-- Completeness of the BFS `True` answer: a `True` result means `fromId` is
reachable from any start whose reachability covers the queue. -/
theorem wccFuel_true_complete (d : Disk) (p : PendingEdges)
    (fromId start : String) :
    ∀ (fuel : Nat) (visited queue : List String),
      wccFuel d p fromId fuel visited queue = some true →
      (∀ u ∈ queue, Relation.ReflTransGen (adjU d p) start u) →
      Relation.ReflTransGen (adjU d p) start fromId := by
  intro fuel
  induction fuel with
  | zero =>
    intro visited queue hres hq
    cases queue with
    | nil =>
      rw [wccFuel_nil] at hres
      cases hres
    | cons c rest =>
      rw [wccFuel_zero] at hres
      cases hres
  | succ fuel ih =>
    intro visited queue hres hq
    cases queue with
    | nil =>
      rw [wccFuel_nil] at hres
      cases hres
    | cons c rest =>
      rw [wccFuel_succ] at hres
      by_cases hcf : c = fromId
      · rw [← hcf]
        exact hq c (List.mem_cons_self _ _)
      · rw [if_neg hcf] at hres
        by_cases hcv : c ∈ visited
        · rw [if_pos hcv] at hres
          exact ih visited rest hres
            (fun u hu => hq u (List.mem_cons_of_mem c hu))
        · rw [if_neg hcv] at hres
          refine ih _ _ hres ?_
          intro u hu
          rcases List.mem_append.mp hu with h | h
          · rcases List.mem_append.mp h with h2 | h2
            · exact hq u (List.mem_cons_of_mem c h2)
            · have h3 := List.mem_filter.mp h2
              exact Relation.ReflTransGen.tail (hq c (List.mem_cons_self _ _))
                (Or.inl h3.1)
          · have h3 := List.mem_filter.mp h
            exact Relation.ReflTransGen.tail (hq c (List.mem_cons_self _ _))
              (Or.inr h3.1)

/-- Number of candidate nodes not yet visited (the BFS potential). -/
def unvisitedCount (cand vis : List String) : Nat :=
  (List.filter (fun x => ¬ x ∈ vis) cand).length

theorem unvisitedCount_mono (cand : List String) (c : String)
    (vis : List String) :
    unvisitedCount cand (c :: vis) ≤ unvisitedCount cand vis := by
  induction cand with
  | nil => exact Nat.le_refl _
  | cons a cand ih =>
    unfold unvisitedCount at ih ⊢
    rw [List.filter_cons, List.filter_cons]
    by_cases hnew : a ∈ c :: vis
    · rw [if_neg (by simp [hnew])]
      by_cases hold : a ∈ vis
      · rw [if_neg (by simp [hold])]
        exact ih
      · rw [if_pos (by simp [hold]), List.length_cons]
        exact Nat.le_succ_of_le ih
    · have hold : a ∉ vis := fun h => hnew (List.mem_cons_of_mem c h)
      rw [if_pos (by simp [hnew]), if_pos (by simp [hold])]
      rw [List.length_cons, List.length_cons]
      exact Nat.succ_le_succ ih

theorem unvisitedCount_lt {cand vis : List String} {c : String}
    (hc : c ∈ cand) (hcv : c ∉ vis) :
    unvisitedCount cand (c :: vis) < unvisitedCount cand vis := by
  induction cand with
  | nil => cases hc
  | cons a cand ih =>
    unfold unvisitedCount at ih ⊢
    rw [List.filter_cons, List.filter_cons]
    by_cases hac : a = c
    · subst hac
      rw [if_neg (by simp), if_pos (by simp [hcv])]
      rw [List.length_cons]
      exact Nat.lt_succ_of_le (unvisitedCount_mono cand a vis)
    · have hc2 : c ∈ cand := by
        rcases List.mem_cons.mp hc with h | h
        · exact absurd h.symm hac
        · exact h
      by_cases hv : a ∈ vis
      · rw [if_neg (by simp [List.mem_cons, hv]), if_neg (by simp [hv])]
        exact ih hc2
      · rw [if_pos (by simp [List.mem_cons, hv, hac]), if_pos (by simp [hv])]
        rw [List.length_cons, List.length_cons]
        exact Nat.succ_lt_succ (ih hc2)

/-- The BFS always answers within fuel exceeding its potential. -/
theorem wccFuel_isSome (d : Disk) (p : PendingEdges) (fromId : String)
    (cand : List String) (degBound : Nat)
    (hnb : ∀ c y, adjU d p c y → y ∈ cand)
    (hdeg : ∀ c, (blockedByOnDisk d c).length + (pendingOf p c).length
      ≤ degBound) :
    ∀ (fuel : Nat) (visited queue : List String),
      (∀ x ∈ queue, x ∈ cand) →
      queue.length + unvisitedCount cand visited * (degBound + 1) < fuel →
      (wccFuel d p fromId fuel visited queue).isSome = true := by
  intro fuel
  induction fuel with
  | zero =>
    intro visited queue _ hlt
    exact absurd hlt (Nat.not_lt_zero _)
  | succ fuel ih =>
    intro visited queue hq hlt
    cases queue with
    | nil =>
      rw [wccFuel_nil]
      rfl
    | cons c rest =>
      rw [wccFuel_succ]
      by_cases hcf : c = fromId
      · rw [if_pos hcf]
        rfl
      · rw [if_neg hcf]
        by_cases hcv : c ∈ visited
        · rw [if_pos hcv]
          apply ih visited rest (fun x hx => hq x (List.mem_cons_of_mem c hx))
          rw [List.length_cons] at hlt
          omega
        · rw [if_neg hcv]
          apply ih
          · intro x hx
            rcases List.mem_append.mp hx with h | h
            · rcases List.mem_append.mp h with h2 | h2
              · exact hq x (List.mem_cons_of_mem c h2)
              · exact hnb c x (Or.inl (List.mem_filter.mp h2).1)
            · exact hnb c x (Or.inr (List.mem_filter.mp h).1)
          · have hq1 : c ∈ cand := hq c (List.mem_cons_self _ _)
            have hlt2 := unvisitedCount_lt hq1 hcv
            have hmul : (unvisitedCount cand (c :: visited) + 1) * (degBound + 1)
                ≤ unvisitedCount cand visited * (degBound + 1) :=
              Nat.mul_le_mul_right _ hlt2
            rw [Nat.succ_mul] at hmul
            have hd1 : (List.filter (fun x => ¬ x ∈ (c :: visited))
                (blockedByOnDisk d c)).length ≤ (blockedByOnDisk d c).length :=
              List.length_filter_le _ _
            have hd2 : (List.filter (fun x => ¬ x ∈ (c :: visited))
                (pendingOf p c)).length ≤ (pendingOf p c).length :=
              List.length_filter_le _ _
            have hdc := hdeg c
            rw [List.length_append, List.length_append]
            rw [List.length_cons] at hlt
            omega

/-- All strings that can ever be enqueued past the start node. -/
def allNeighbors (d : Disk) (p : PendingEdges) : List String :=
  List.flatten (List.map TaskFile.blocked_by d) ++ List.map Prod.snd p

theorem adjU_mem_allNeighbors {d : Disk} {p : PendingEdges} {c y : String}
    (h : adjU d p c y) : y ∈ allNeighbors d p := by
  unfold allNeighbors
  rcases h with h | h
  · refine List.mem_append.mpr (Or.inl ?_)
    unfold diskAdj blockedByOnDisk at h
    cases hf : findTask d c with
    | none =>
      rw [hf] at h
      cases h
    | some t =>
      rw [hf] at h
      exact List.mem_flatten.mpr ⟨t.blocked_by,
        List.mem_map_of_mem TaskFile.blocked_by (findTask_mem hf), h⟩
  · refine List.mem_append.mpr (Or.inr ?_)
    have h2 := mem_pendingOf.mp h
    exact List.mem_map.mpr ⟨(c, y), h2, rfl⟩

theorem blockedByOnDisk_length_le (d : Disk) (c : String) :
    (blockedByOnDisk d c).length
      ≤ (List.map (fun t => t.blocked_by.length) d).sum := by
  unfold blockedByOnDisk
  cases hf : findTask d c with
  | none => exact Nat.zero_le _
  | some t =>
    exact List.single_le_sum (fun x _ => Nat.zero_le x) _
      (List.mem_map_of_mem (fun t => t.blocked_by.length) (findTask_mem hf))

theorem pendingOf_length_le (p : PendingEdges) (c : String) :
    (pendingOf p c).length ≤ p.length := by
  unfold pendingOf
  rw [List.length_map]
  exact List.length_filter_le _ _

theorem unvisitedCount_nil_right (cand : List String) :
    unvisitedCount cand [] = cand.length := by
  unfold unvisitedCount
  rw [List.filter_eq_self.mpr]
  intro a _
  simp

/-- The BFS of `_would_create_cycle` decides reachability: the call returns
`True` exactly when `from_id` is reachable from `to_id` along the union of
on-disk and pending `blocked_by` edges. -/
theorem wouldCreateCycle_iff (d : Disk) (p : PendingEdges)
    (fromId toId : String) :
    wouldCreateCycle d fromId toId p = true
      ↔ Relation.ReflTransGen (adjU d p) toId fromId := by
  have hsome : (wccFuel d p fromId (bfsFuel d p) [] [toId]).isSome = true := by
    apply wccFuel_isSome d p fromId (toId :: allNeighbors d p)
      ((List.map (fun t => t.blocked_by.length) d).sum + p.length)
    · intro c y hy
      exact List.mem_cons_of_mem toId (adjU_mem_allNeighbors hy)
    · intro c
      have h1 := blockedByOnDisk_length_le d c
      have h2 := pendingOf_length_le p c
      omega
    · intro x hx
      rw [List.mem_singleton.mp hx]
      exact List.mem_cons_self _ _
    · have hlen : (allNeighbors d p).length
          = (List.map (fun t => t.blocked_by.length) d).sum + p.length := by
        unfold allNeighbors
        rw [List.length_append, List.length_flatten, List.map_map,
          List.length_map]
        rfl
      have h2 : (toId :: allNeighbors d p).length
          = (List.map (fun t => t.blocked_by.length) d).sum + p.length + 1 := by
        rw [List.length_cons, hlen]
      rw [unvisitedCount_nil_right, h2]
      have hfuel : bfsFuel d p
          = (1 + (List.map (fun t => t.blocked_by.length) d).sum + p.length)
            * ((List.map (fun t => t.blocked_by.length) d).sum + p.length + 1)
            + 2 := rfl
      rw [hfuel]
      rw [show ([toId] : List String).length = 1 from rfl]
      generalize (List.map (fun t => t.blocked_by.length) d).sum = e
      generalize List.length p = q
      have hc : 1 + e + q = e + q + 1 := by omega
      rw [hc]
      generalize (e + q + 1) * (e + q + 1) = P
      omega
  unfold wouldCreateCycle
  cases hres : wccFuel d p fromId (bfsFuel d p) [] [toId] with
  | none =>
    rw [hres] at hsome
    cases hsome
  | some b =>
    cases b with
    | false =>
      constructor
      · intro h
        cases h
      · intro hrtg
        exact absurd hrtg (wccFuel_false_sound d p fromId (bfsFuel d p) []
          [toId] hres (List.not_mem_nil _)
          (fun v hv => absurd hv (List.not_mem_nil _)) toId
          (Or.inl (List.mem_singleton.mpr rfl)))
    | true =>
      constructor
      · intro _
        apply wccFuel_true_complete d p fromId toId (bfsFuel d p) [] [toId] hres
        intro u hu
        rw [List.mem_singleton.mp hu]
      · intro _
        rfl

theorem rtg_union_decomp {r s : String → String → Prop} {u v : String}
    (h : Relation.ReflTransGen (fun a b => r a b ∨ s a b) u v) :
    Relation.ReflTransGen r u v
    ∨ ∃ x y, s x y
        ∧ Relation.ReflTransGen (fun a b => r a b ∨ s a b) u x
        ∧ Relation.ReflTransGen (fun a b => r a b ∨ s a b) y v := by
  induction h with
  | refl => exact Or.inl Relation.ReflTransGen.refl
  | tail h1 h2 ih =>
    rcases h2 with h2 | h2
    · rcases ih with ih | ⟨x, y, hs, hux, hyb⟩
      · exact Or.inl (Relation.ReflTransGen.tail ih h2)
      · exact Or.inr ⟨x, y, hs, hux,
          Relation.ReflTransGen.tail hyb (Or.inl h2)⟩
    · exact Or.inr ⟨_, _, h2, h1, Relation.ReflTransGen.refl⟩

/-- In a cycle of the union graph over an acyclic disk, some pending edge
`x → y` has a union path back from `y` to `x`. -/
theorem cycle_pending {d : Disk} {p : PendingEdges}
    (hacyc : ¬ ∃ z, Relation.TransGen (diskAdj d) z z)
    (h : ∃ z, Relation.TransGen (adjU d p) z z) :
    ∃ x y, pendAdj p x y ∧ Relation.ReflTransGen (adjU d p) y x := by
  obtain ⟨z, hz⟩ := h
  obtain ⟨b, hzb, hbz⟩ := Relation.TransGen.tail'_iff.mp hz
  rcases hbz with hbz | hbz
  · rcases rtg_union_decomp hzb with hpure | ⟨x, y, hs, hzx, hyb⟩
    · exact absurd ⟨z, Relation.TransGen.tail' hpure hbz⟩ hacyc
    · refine ⟨x, y, hs, ?_⟩
      exact Relation.ReflTransGen.trans
        (Relation.ReflTransGen.tail hyb (Or.inl hbz)) hzx
  · exact ⟨b, z, hbz, hzb⟩

theorem cycleChecks_err_iff (d : Disk) (taskId : String) (a : UpdateArgs) :
    (∃ e, cycleChecks d taskId a = Except.error e)
      ↔ ((∃ b ∈ a.add_blocks,
            wouldCreateCycle d b taskId (pendingEdges taskId a) = true)
        ∨ (∃ c ∈ a.add_blocked_by,
            wouldCreateCycle d taskId c (pendingEdges taskId a) = true)) := by
  constructor
  · rintro ⟨e, he⟩
    simp only [cycleChecks] at he
    cases h1 : List.forM a.add_blocks (fun b =>
        if wouldCreateCycle d b taskId (pendingEdges taskId a) then
          Except.error (UpdateError.circularBlock taskId b)
        else Except.ok ()) with
    | error e1 =>
      obtain ⟨b, hb, hfb⟩ := forM_eq_error h1
      refine Or.inl ⟨b, hb, ?_⟩
      by_cases hw : wouldCreateCycle d b taskId (pendingEdges taskId a) = true
      · exact hw
      · rw [if_neg hw] at hfb
        cases hfb
    | ok u =>
      cases u
      rw [h1, ebind_ok] at he
      obtain ⟨c, hc, hfc⟩ := forM_eq_error he
      refine Or.inr ⟨c, hc, ?_⟩
      by_cases hw : wouldCreateCycle d taskId c (pendingEdges taskId a) = true
      · exact hw
      · rw [if_neg hw] at hfc
        cases hfc
  · rintro (⟨b, hb, hw⟩ | ⟨c, hc, hw⟩)
    · have hex : ∃ x ∈ a.add_blocks,
          (if wouldCreateCycle d x taskId (pendingEdges taskId a) then
            Except.error (UpdateError.circularBlock taskId x)
          else Except.ok ()) ≠ (Except.ok () : Except UpdateError Unit) :=
        ⟨b, hb, by rw [if_pos hw]; simp⟩
      obtain ⟨e1, he1⟩ := forM_error_of_exists hex
      refine ⟨e1, ?_⟩
      simp only [cycleChecks]
      rw [he1, ebind_error]
    · cases h1 : List.forM a.add_blocks (fun b =>
          if wouldCreateCycle d b taskId (pendingEdges taskId a) then
            Except.error (UpdateError.circularBlock taskId b)
          else Except.ok ()) with
      | error e1 =>
        refine ⟨e1, ?_⟩
        simp only [cycleChecks]
        rw [h1, ebind_error]
      | ok u =>
        cases u
        have hex : ∃ x ∈ a.add_blocked_by,
            (if wouldCreateCycle d taskId x (pendingEdges taskId a) then
              Except.error (UpdateError.circularBlockedBy taskId x)
            else Except.ok ()) ≠ (Except.ok () : Except UpdateError Unit) :=
          ⟨c, hc, by rw [if_pos hw]; simp⟩
        obtain ⟨e2, he2⟩ := forM_error_of_exists hex
        refine ⟨e2, ?_⟩
        simp only [cycleChecks]
        rw [h1, ebind_ok, he2]

theorem updateTask_diskAdj_sub {d : Disk} {taskId : String} {a : UpdateArgs}
    {task0 : TaskFile} {d' : Disk} {r : TaskFile} (hwf : DiskWF d)
    (hfind : findTask d taskId = some task0)
    (hup : updateTask d taskId a = (d', Except.ok r)) :
    ∀ x y, diskAdj d' x y → adjU d (pendingEdges taskId a) x y := by
  obtain ⟨_, _, hdelc, hndc, hoth⟩ := updateTask_ok_spec hwf hfind hup
  intro x y hxy
  unfold diskAdj at hxy
  cases hfx : findTask d' x with
  | none =>
    simp only [blockedByOnDisk, hfx] at hxy
    cases hxy
  | some X =>
    simp only [blockedByOnDisk, hfx] at hxy
    by_cases hxid : x = taskId
    · by_cases hdel : a.status = some "deleted"
      · rw [hxid, hdelc hdel] at hfx
        cases hfx
      · have hX : X = selfExpected task0 a := by
          rw [hxid, hndc hdel] at hfx
          have h2 : some (selfExpected task0 a) = some X := hfx
          have h3 : selfExpected task0 a = X := by injection h2
          exact h3.symm
        rw [hX, selfExpected_blocked_by] at hxy
        rcases mem_foldl_addUnique.mp hxy with h | h
        · left
          unfold diskAdj blockedByOnDisk
          rw [hxid, hfind]
          exact h
        · right
          unfold pendAdj
          rw [hxid]
          apply mem_pendingOf.mpr
          unfold pendingEdges
          refine List.mem_append.mpr (Or.inr ?_)
          exact List.mem_map.mpr ⟨y, h, rfl⟩
    · rw [hoth x hxid] at hfx
      cases hfdx : findTask d x with
      | none =>
        rw [hfdx] at hfx
        cases hfx
      | some tX =>
        rw [hfdx] at hfx
        have hX : otherFinal taskId a tX = X := by injection hfx
        rw [← hX] at hxy
        rcases linkedOther_blocked_by_cases (otherFinal_blocked_by_sub hxy)
          with h | h
        · left
          unfold diskAdj blockedByOnDisk
          rw [hfdx]
          exact h
        · right
          unfold pendAdj
          rw [h.1]
          apply mem_pendingOf.mpr
          unfold pendingEdges
          refine List.mem_append.mpr (Or.inl ?_)
          refine List.mem_map.mpr ⟨tX.id, h.2, ?_⟩
          rw [findTask_id hfdx]

/-- C3: over an acyclic on-disk graph, phase 2 raises a circular-dependency
error exactly when the union of the on-disk `blocked_by` edges and the
pending new edges is cyclic; the raised error is always one of the two
circular-dependency exceptions; and the on-disk graph is still acyclic after
every successful `update_task`. -/
theorem claim_C3 (d : Disk) (taskId : String) (a : UpdateArgs)
    (hacyc : ¬ ∃ z, Relation.TransGen (diskAdj d) z z) :
    ((∃ e, cycleChecks d taskId a = Except.error e)
       ↔ ∃ z, Relation.TransGen (adjU d (pendingEdges taskId a)) z z)
    ∧ (∀ e, cycleChecks d taskId a = Except.error e →
        (∃ b ∈ a.add_blocks, e = UpdateError.circularBlock taskId b)
        ∨ (∃ c ∈ a.add_blocked_by, e = UpdateError.circularBlockedBy taskId c))
    ∧ (∀ d' r, DiskWF d → updateTask d taskId a = (d', Except.ok r) →
        ¬ ∃ z, Relation.TransGen (diskAdj d') z z) := by
  have hiff : (∃ e, cycleChecks d taskId a = Except.error e)
      ↔ ∃ z, Relation.TransGen (adjU d (pendingEdges taskId a)) z z := by
    rw [cycleChecks_err_iff]
    constructor
    · rintro (⟨b, hb, hw⟩ | ⟨c, hc, hw⟩)
      · have hrtg := (wouldCreateCycle_iff d (pendingEdges taskId a)
          b taskId).mp hw
        have hedge : adjU d (pendingEdges taskId a) b taskId := by
          right
          apply mem_pendingOf.mpr
          unfold pendingEdges
          refine List.mem_append.mpr (Or.inl ?_)
          exact List.mem_map.mpr ⟨b, hb, rfl⟩
        exact ⟨b, Relation.TransGen.head' hedge hrtg⟩
      · have hrtg := (wouldCreateCycle_iff d (pendingEdges taskId a)
          taskId c).mp hw
        have hedge : adjU d (pendingEdges taskId a) taskId c := by
          right
          apply mem_pendingOf.mpr
          unfold pendingEdges
          refine List.mem_append.mpr (Or.inr ?_)
          exact List.mem_map.mpr ⟨c, hc, rfl⟩
        exact ⟨taskId, Relation.TransGen.head' hedge hrtg⟩
    · intro hcyc
      obtain ⟨x, y, hpend, hrtg⟩ := cycle_pending hacyc hcyc
      rcases List.mem_append.mp (mem_pendingOf.mp hpend) with h | h
      · obtain ⟨b, hb, heq⟩ := List.mem_map.mp h
        obtain ⟨hx, hy⟩ := Prod.mk.injEq _ _ _ _ ▸ heq
        left
        refine ⟨b, hb, (wouldCreateCycle_iff _ _ _ _).mpr ?_⟩
        rw [← hx, ← hy] at hrtg
        exact hrtg
      · obtain ⟨c, hc, heq⟩ := List.mem_map.mp h
        obtain ⟨hx, hy⟩ := Prod.mk.injEq _ _ _ _ ▸ heq
        right
        refine ⟨c, hc, (wouldCreateCycle_iff _ _ _ _).mpr ?_⟩
        rw [← hx, ← hy] at hrtg
        exact hrtg
  refine ⟨hiff, ?_, ?_⟩
  · intro e he
    simp only [cycleChecks] at he
    cases h1 : List.forM a.add_blocks (fun b =>
        if wouldCreateCycle d b taskId (pendingEdges taskId a) then
          Except.error (UpdateError.circularBlock taskId b)
        else Except.ok ()) with
    | error e1 =>
      rw [h1, ebind_error] at he
      have he1 : e1 = e := by injection he
      obtain ⟨b, hb, hfb⟩ := forM_eq_error h1
      by_cases hw : wouldCreateCycle d b taskId (pendingEdges taskId a) = true
      · rw [if_pos hw] at hfb
        have h2 : UpdateError.circularBlock taskId b = e1 := by injection hfb
        exact Or.inl ⟨b, hb, by rw [← he1, ← h2]⟩
      · rw [if_neg hw] at hfb
        cases hfb
    | ok u =>
      cases u
      rw [h1, ebind_ok] at he
      obtain ⟨c, hc, hfc⟩ := forM_eq_error he
      by_cases hw : wouldCreateCycle d taskId c (pendingEdges taskId a) = true
      · rw [if_pos hw] at hfc
        have h2 : UpdateError.circularBlockedBy taskId c = e := by injection hfc
        exact Or.inr ⟨c, hc, h2.symm⟩
      · rw [if_neg hw] at hfc
        cases hfc
  · intro d' r hwf hup
    rintro ⟨z, hz⟩
    cases hfind : findTask d taskId with
    | none => simp [updateTask, hfind] at hup
    | some task0 =>
      have hv := updateTask_ok_validate hfind hup
      have h3 := (validatePhase_ok_parts hv).2.2.1
      have hnoc : ¬ ∃ z, Relation.TransGen
          (adjU d (pendingEdges taskId a)) z z := by
        intro hc
        obtain ⟨e, he⟩ := hiff.mpr hc
        rw [h3] at he
        cases he
      exact hnoc ⟨z, Relation.TransGen.mono
        (updateTask_diskAdj_sub hwf hfind hup) hz⟩

theorem acyclic_of_no_edges {adj : String → String → Prop}
    (h : ∀ x y, ¬ adj x y) : ¬ ∃ z, Relation.TransGen adj z z := by
  rintro ⟨z, hz⟩
  cases hz with
  | single h1 => exact h _ _ h1
  | tail _ h1 => exact h _ _ h1

theorem blockedByOnDisk_nil {d : Disk} (h : ∀ t ∈ d, t.blocked_by = [])
    (x : String) : blockedByOnDisk d x = [] := by
  unfold blockedByOnDisk
  cases hf : findTask d x with
  | none => rfl
  | some t =>
    show t.blocked_by = []
    exact h t (findTask_mem hf)

/-- Witness for C3 on a two-task store with one requested edge: the disk
graph is edgeless (hence acyclic), the check runs without error, and the
equivalence instantiates. -/
theorem claim_C3_witness :
    (¬ ∃ z, Relation.TransGen (diskAdj [exT1, exT2]) z z)
    ∧ cycleChecks [exT1, exT2] "1" { add_blocks := ["2"] } = Except.ok ()
    ∧ ((∃ e, cycleChecks [exT1, exT2] "1" { add_blocks := ["2"] }
          = Except.error e)
        ↔ ∃ z, Relation.TransGen (adjU [exT1, exT2]
            (pendingEdges "1" { add_blocks := ["2"] })) z z) := by
  have hacyc : ¬ ∃ z, Relation.TransGen (diskAdj [exT1, exT2]) z z := by
    apply acyclic_of_no_edges
    intro x y hxy
    unfold diskAdj at hxy
    rw [blockedByOnDisk_nil (by decide) x] at hxy
    cases hxy
  exact ⟨hacyc, by rfl,
    (claim_C3 [exT1, exT2] "1" { add_blocks := ["2"] } hacyc).1⟩

end ClaudeTeams